import Mathlib

/-!
The program md5folder: the concurrent digest pipeline and the manifest writer.

A shallow embedding of `main.go`.

* `MD5All` / `sumFiles` are a set of goroutines communicating over the channels
  `c`, `errc` and `done` and the wait group `wg`.  They are embedded as a
  transition system: a `State` holds the program counter and the local
  variables of every goroutine together with the channels and the wait group,
  and `step` performs one atomic action of one goroutine.  An interleaving is
  a list of actions (`exec`).
* `calcMd5`, `fileExists` and `WriteToFile` are sequential and are embedded as
  functions on a `World` (file system and standard output).

The standard library and the operating system are parameters (`Env`,
`World`): `md5.Sum`, the sequence of callback invocations that
`filepath.Walk` makes, and the outcome of `ioutil.ReadFile`.
-/

namespace Md5Folder

/-! ## Data model -/

/-- A byte. -/
abbrev Byte := Fin 256

/-- A Go `string`: a sequence of bytes. -/
abbrev GoString := List Byte

/-- The constant `md5.Size`. -/
def md5Size : Nat := 16

/-- The array type `[md5.Size]byte`. -/
abbrev Digest := { l : List Byte // l.length = md5Size }

/-- An `error` value.  Errors coming from the operating system (handed to the
walk callback, or returned by `ioutil.ReadFile`) are identified by a code; the
value made by `errors.New("walk canceled")` at line 57 is distinct from all of
them. -/
inductive Err where
  | os (code : Nat)
  | walkCanceled
  deriving DecidableEq, Repr

/-- The struct `result` (lines 21-25); `err = none` is Go's `nil`. -/
structure result where
  path : GoString
  sum : Digest
  err : Option Err
  deriving DecidableEq

/-- The type `map[string][md5.Size]byte`, as an association list with unique
keys.  The order of the list is not observable by the program. -/
abbrev DigestMap := List (GoString × Digest)

/-- The assignment `m[k] = v`. -/
def mapSet (m : DigestMap) (k : GoString) (v : Digest) : DigestMap :=
  (k, v) :: m.filter (fun kv => decide (kv.1 ≠ k))

/-- The lookup `m[k]` with its presence flag. -/
def mapGet (m : DigestMap) (k : GoString) : Option Digest :=
  (m.find? (fun kv => decide (kv.1 = k))).map (fun kv => kv.2)

/-- The keys of a map. -/
def mapKeys (m : DigestMap) : List GoString :=
  m.map (fun kv => kv.1)

/-- One invocation of the callback that `filepath.Walk` is given: the
arguments `path`, `info.Mode().IsRegular()` and `err` (an operating system
error code, `none` for `nil`). -/
structure WalkEntry where
  path : GoString
  regular : Bool
  err : Option Nat
  deriving DecidableEq

/-- The standard library and operating system as the pipeline sees them.
* `md5Sum` is `md5.Sum`;
* `walk root` is the sequence of callback invocations `filepath.Walk(root, fn)`
  makes as long as `fn` returns `nil`; `Walk` stops at the first invocation for
  which `fn` returns a non-nil error and returns that error (the callback of
  `sumFiles` never returns `filepath.SkipDir`), and returns `nil` when the
  sequence is exhausted;
* `readFile path` is the pair `(data, err)` returned by `ioutil.ReadFile`. -/
structure Env where
  md5Sum : List Byte → Digest
  walk : GoString → List WalkEntry
  readFile : GoString → List Byte × Option Nat

/-- The value `result{path, md5.Sum(data), err}` a worker builds (lines 47-49). -/
def mkResult (env : Env) (path : GoString) : result :=
  { path := path
    sum := env.md5Sum (env.readFile path).1
    err := (env.readFile path).2.map Err.os }

/-- The pair `(map[string][md5.Size]byte, error)` returned by `MD5All`;
`none` is `nil` in both components. -/
abbrev MD5AllResult := Option DigestMap × Option Err

/-! ## The goroutines of `sumFiles` and `MD5All` -/

/-- Program counter and locals of the goroutine started at line 36. -/
inductive WalkerPC where
  /-- Inside `filepath.Walk`; the callback is about to be invoked on the head
  of `rest` (or `Walk` is about to return `nil` when `rest` is empty). -/
  | walking (rest : List WalkEntry)
  /-- Inside the callback, after `go func()...` at line 46, at the `select` of
  line 55. -/
  | checkDone (rest : List WalkEntry)
  /-- The call to `filepath.Walk` has returned `err`; at line 64. -/
  | walkReturned (err : Option Err)
  /-- At `errc <- err`, line 69. -/
  | sendErr (err : Option Err)
  /-- The goroutine has ended, having sent `err`. -/
  | finished (err : Option Err)
  deriving DecidableEq

/-- Program counter of a digest goroutine (lines 46-53). -/
inductive WorkerPC where
  /-- At `ioutil.ReadFile(path)`, line 47. -/
  | read
  /-- At the `select` of line 48, holding the value to send. -/
  | offer (r : result)
  /-- After the `select`, at `wg.Done()`, line 52. -/
  | wgDone
  /-- The goroutine has ended. -/
  | exited
  deriving DecidableEq

/-- A digest goroutine: the `path` its closure captured, and where it is. -/
structure Worker where
  path : GoString
  pc : WorkerPC
  deriving DecidableEq

/-- Program counter of the goroutine of lines 64-67. -/
inductive CloserPC where
  | notStarted
  /-- At `wg.Wait()`. -/
  | waiting
  /-- At `close(c)`. -/
  | closing
  | exited
  deriving DecidableEq

/-- Program counter and locals of `MD5All` (lines 78-97). -/
inductive CollectorPC where
  /-- At `for r := range c`, line 87, with the map `m` built so far. -/
  | ranging (m : DigestMap)
  /-- At `<-errc`, line 93. -/
  | recvErrc (m : DigestMap)
  /-- A `return` statement has set the result; the deferred `close(done)` of
  line 82 has not run yet. -/
  | closeDone (ret : MD5AllResult)
  /-- The function `MD5All` has returned `ret` to its caller. -/
  | returned (ret : MD5AllResult)
  deriving DecidableEq

/-- A state of one invocation of `MD5All`. -/
structure State where
  walker : WalkerPC
  workers : List Worker
  closer : CloserPC
  collector : CollectorPC
  /-- The counter of the wait group `wg`. -/
  wg : Nat
  /-- Whether the channel `done` is closed. -/
  done : Bool
  /-- Whether the channel `c` is closed. -/
  cClosed : Bool
  /-- The buffer (capacity 1) of the channel `errc`. -/
  errc : Option (Option Err)
  /-- A run-time panic has happened (send on a closed channel, close of a
  closed channel, negative wait group counter). -/
  panicked : Bool
  deriving DecidableEq

/-- The state in which `MD5All(root)` enters its `range` loop: `done`, `c` and
`errc` are open and empty, the walker goroutine has been started, `m` is the
empty map. -/
def State.init (env : Env) (root : GoString) : State :=
  { walker := .walking (env.walk root)
    workers := []
    closer := .notStarted
    collector := .ranging []
    wg := 0
    done := false
    cClosed := false
    errc := none
    panicked := false }

/-- The atomic actions of the goroutines. -/
inductive Action where
  /-- The next step of the walker goroutine. -/
  | walk
  /-- Worker `i` runs `ioutil.ReadFile` and `md5.Sum`. -/
  | read (i : Nat)
  /-- The case `c <- result{...}` of worker `i` fires together with the
  receive of the `range` loop of `MD5All` (the channel `c` is unbuffered). -/
  | deliver (i : Nat)
  /-- The case `<-done` of worker `i` fires. -/
  | abandon (i : Nat)
  /-- The send case of worker `i` is chosen while `c` is closed: a panic. -/
  | sendClosed (i : Nat)
  /-- Worker `i` calls `wg.Done()`. -/
  | wgDone (i : Nat)
  /-- The next step of the goroutine of lines 64-67. -/
  | closer
  /-- A step of `MD5All` that involves no worker: the `range` loop ends on the
  closed channel, the receive from `errc`, the deferred `close(done)`. -/
  | collect
  deriving DecidableEq

/-- Replace the program counter of worker `i`. -/
def setPC (ws : List Worker) (i : Nat) (pc : WorkerPC) : List Worker :=
  ws.modify (fun w => { w with pc := pc }) i

/-- The step of the walker goroutine (lines 36-70). -/
def stepWalker (s : State) : Option State :=
  match s.walker with
  | .walking [] => some { s with walker := .walkReturned none }
  | .walking (e :: rest) =>
    match e.err with
    | some x => some { s with walker := .walkReturned (some (.os x)) }
    | none =>
      if e.regular then
        some { s with
          wg := s.wg + 1
          workers := s.workers ++ [{ path := e.path, pc := .read }]
          walker := .checkDone rest }
      else some { s with walker := .walking rest }
  | .checkDone rest =>
    if s.done then some { s with walker := .walkReturned (some .walkCanceled) }
    else some { s with walker := .walking rest }
  | .walkReturned err => some { s with closer := .waiting, walker := .sendErr err }
  | .sendErr err =>
    match s.errc with
    | none => some { s with errc := some err, walker := .finished err }
    | some _ => none
  | .finished _ => none

/-- The step of the goroutine of lines 64-67. -/
def stepCloser (s : State) : Option State :=
  match s.closer with
  | .notStarted => none
  | .waiting => if s.wg = 0 then some { s with closer := .closing } else none
  | .closing =>
    if s.cClosed then some { s with panicked := true }
    else some { s with cClosed := true, closer := .exited }
  | .exited => none

/-- What the body of the `range` loop does with a received `r` (lines 88-91). -/
def collectResult (m : DigestMap) (r : result) : CollectorPC :=
  match r.err with
  | some e => .closeDone (none, some e)
  | none => .ranging (mapSet m r.path r.sum)

/-- The steps of `MD5All` that involve no worker. -/
def stepCollector (s : State) : Option State :=
  match s.collector with
  | .ranging m => if s.cClosed then some { s with collector := .recvErrc m } else none
  | .recvErrc m =>
    match s.errc with
    | none => none
    | some (some e) => some { s with errc := none, collector := .closeDone (none, some e) }
    | some none => some { s with errc := none, collector := .closeDone (some m, none) }
  | .closeDone ret =>
    if s.done then some { s with panicked := true }
    else some { s with done := true, collector := .returned ret }
  | .returned _ => none

/-- The steps of digest goroutine `i` (lines 46-53). -/
def stepWorker (env : Env) (a : Action) (s : State) : Option State :=
  match a with
  | .read i =>
    match s.workers[i]? with
    | some ⟨p, .read⟩ => some { s with workers := setPC s.workers i (.offer (mkResult env p)) }
    | _ => none
  | .deliver i =>
    match s.workers[i]?, s.collector with
    | some ⟨_, .offer r⟩, .ranging m =>
      if s.cClosed then none
      else some { s with workers := setPC s.workers i .wgDone, collector := collectResult m r }
    | _, _ => none
  | .abandon i =>
    match s.workers[i]? with
    | some ⟨_, .offer _⟩ =>
      if s.done then some { s with workers := setPC s.workers i .wgDone } else none
    | _ => none
  | .sendClosed i =>
    match s.workers[i]? with
    | some ⟨_, .offer _⟩ => if s.cClosed then some { s with panicked := true } else none
    | _ => none
  | .wgDone i =>
    match s.workers[i]? with
    | some ⟨_, .wgDone⟩ =>
      if s.wg = 0 then some { s with panicked := true }
      else some { s with wg := s.wg - 1, workers := setPC s.workers i .exited }
    | _ => none
  | _ => none

/-- One atomic action; `none` when the action is not enabled.  After a panic
the program has crashed and nothing is enabled. -/
def step (env : Env) (a : Action) (s : State) : Option State :=
  if s.panicked then none
  else
    match a with
    | .walk => stepWalker s
    | .closer => stepCloser s
    | .collect => stepCollector s
    | a => stepWorker env a s

/-- Run an interleaving, given as the list of actions taken. -/
def exec (env : Env) : List Action → State → Option State
  | [], s => some s
  | a :: as, s => (step env a s).bind (exec env as)

/-- The states `MD5All(root)` can be in. -/
def Reachable (env : Env) (root : GoString) (s : State) : Prop :=
  ∃ as, exec env as (State.init env root) = some s

/-- The result `MD5All` has chosen, if it has executed a `return`. -/
def CollectorPC.ret : CollectorPC → Option MD5AllResult
  | .closeDone r => some r
  | .returned r => some r
  | _ => none

/-- The result `MD5All` has chosen in `s`, if it has executed a `return`. -/
def State.ret (s : State) : Option MD5AllResult :=
  s.collector.ret

/-- Every interleaving from `s` reaches a state satisfying `P`: either `P`
holds in `s`, or some goroutine can take a step and whichever step is taken
leads to a state from which `P` is again inevitable. -/
inductive Inevitably (env : Env) (P : State → Prop) : State → Prop where
  | now {s : State} : P s → Inevitably env P s
  | later {s : State} :
      (∃ a s', step env a s = some s') →
      (∀ a s', step env a s = some s' → Inevitably env P s') →
      Inevitably env P s

/-! ## The sequential reading of the walk -/

/-- The paths for which the callback of lines 38-61 starts a digest goroutine
when the walk is not canceled: the regular files among the entries that come
before the first entry with an access error. -/
def discovered : List WalkEntry → List GoString
  | [] => []
  | e :: rest =>
    match e.err with
    | some _ => []
    | none => if e.regular then e.path :: discovered rest else discovered rest

/-- The access error of the first entry that has one: the error the callback
returns at line 40, which `filepath.Walk` then returns. -/
def walkErr : List WalkEntry → Option Nat
  | [] => none
  | e :: rest =>
    match e.err with
    | some x => some x
    | none => walkErr rest

/-- The digest of the content of the file at `p`. -/
def digestOf (env : Env) (p : GoString) : Digest :=
  env.md5Sum (env.readFile p).1

/-- The map `m` holds exactly the paths of `ps`, each with the digest of its
file's content. -/
def MapIs (env : Env) (ps : List GoString) (m : DigestMap) : Prop :=
  ∀ p, mapGet m p = if p ∈ ps then some (digestOf env p) else none

/-- What `MD5All` may return for the entries `E` of the walk: the map of all
discovered files when nothing fails; the read error of a discovered file; or
the access error of the walk when all discovered files could be read. -/
def ResultSpec (env : Env) (E : List WalkEntry) : MD5AllResult → Prop
  | (some m, none) =>
      walkErr E = none ∧ (∀ p ∈ discovered E, (env.readFile p).2 = none) ∧
        MapIs env (discovered E) m ∧ (mapKeys m).Nodup
  | (none, some (.os x)) =>
      (∃ p ∈ discovered E, (env.readFile p).2 = some x) ∨
        (walkErr E = some x ∧ ∀ p ∈ discovered E, (env.readFile p).2 = none)
  | _ => False

/-! ## Invariants and measure -/

/-- The worker is past its `select`. -/
def Worker.pastSelect (w : Worker) : Prop :=
  w.pc = .wgDone ∨ w.pc = .exited

/-- The number of workers that have not called `wg.Done()` yet. -/
def live (ws : List Worker) : Nat :=
  (ws.map (fun w => if w.pc = .exited then 0 else 1)).sum

/-- The paths of the workers, in the order they were started. -/
def paths (ws : List Worker) : List GoString :=
  ws.map (fun w => w.path)

/-- What the value returned by `filepath.Walk` says about the walk. -/
def WalkOutcome (E : List WalkEntry) (ws : List Worker) (done : Bool) : Option Err → Prop
  | none => paths ws = discovered E ∧ walkErr E = none
  | some (.os x) => paths ws = discovered E ∧ walkErr E = some x
  | some .walkCanceled => done = true

/-- Invariant of the walker goroutine. -/
def WalkerInv (E : List WalkEntry) (s : State) : Prop :=
  match s.walker with
  | .walking rest =>
      paths s.workers ++ discovered rest = discovered E ∧ walkErr rest = walkErr E ∧
        s.closer = .notStarted ∧ s.errc = none
  | .checkDone rest =>
      paths s.workers ++ discovered rest = discovered E ∧ walkErr rest = walkErr E ∧
        s.closer = .notStarted ∧ s.errc = none
  | .walkReturned err => WalkOutcome E s.workers s.done err ∧ s.closer = .notStarted ∧ s.errc = none
  | .sendErr err => WalkOutcome E s.workers s.done err ∧ s.closer ≠ .notStarted ∧ s.errc = none
  | .finished err =>
      WalkOutcome E s.workers s.done err ∧ s.closer ≠ .notStarted ∧
        (s.errc = some err ∨ (s.errc = none ∧ s.collector.ret.isSome))

/-- Invariant of the goroutine that closes `c`. -/
def CloserInv (s : State) : Prop :=
  match s.closer with
  | .notStarted => s.cClosed = false
  | .waiting => s.cClosed = false
  | .closing => s.cClosed = false ∧ ∀ w ∈ s.workers, w.pc = .exited
  | .exited => s.cClosed = true ∧ ∀ w ∈ s.workers, w.pc = .exited

/-- The map of the collector holds exactly the results of the workers that are
past their `select`, and all of these could read their file. -/
def MapInv (env : Env) (ws : List Worker) (m : DigestMap) : Prop :=
  (∀ w ∈ ws, w.pastSelect →
      (env.readFile w.path).2 = none ∧ mapGet m w.path = some (digestOf env w.path)) ∧
    (∀ p v, mapGet m p = some v → ∃ w ∈ ws, w.path = p ∧ w.pastSelect) ∧
    (mapKeys m).Nodup

/-- Invariant of `MD5All`. -/
def CollectorInv (env : Env) (E : List WalkEntry) (s : State) : Prop :=
  match s.collector with
  | .ranging m => s.done = false ∧ MapInv env s.workers m
  | .recvErrc m => s.done = false ∧ MapInv env s.workers m ∧ s.cClosed = true
  | .closeDone r => s.done = false ∧ ResultSpec env E r
  | .returned r => s.done = true ∧ ResultSpec env E r

/-- The invariant of the pipeline, for the entries `E` of the walk. -/
structure Inv (env : Env) (E : List WalkEntry) (s : State) : Prop where
  noPanic : s.panicked = false
  wgCount : s.wg = live s.workers
  offerOk : ∀ w ∈ s.workers, ∀ r, w.pc = .offer r → r = mkResult env w.path
  pathsOk : ∃ l, paths s.workers ++ l = discovered E
  walkerOk : WalkerInv E s
  closerOk : CloserInv s
  collectorOk : CollectorInv env E s

/-- Steps a worker still has to take. -/
def workerSteps (w : Worker) : Nat :=
  match w.pc with
  | .read => 3
  | .offer _ => 2
  | .wgDone => 1
  | .exited => 0

/-- Steps the walker goroutine still has to take, counting three more for
each worker it may still start. -/
def walkerSteps : WalkerPC → Nat
  | .walking rest => 6 * rest.length + 10
  | .checkDone rest => 6 * rest.length + 11
  | .walkReturned _ => 5
  | .sendErr _ => 2
  | .finished _ => 0

/-- Steps the closing goroutine still has to take. -/
def closerSteps : CloserPC → Nat
  | .notStarted => 0
  | .waiting => 2
  | .closing => 1
  | .exited => 0

/-- Steps `MD5All` still has to take on its own. -/
def collectorSteps : CollectorPC → Nat
  | .ranging _ => 3
  | .recvErrc _ => 2
  | .closeDone _ => 1
  | .returned _ => 0

/-- A bound on the number of steps the pipeline can still take. -/
def measure (s : State) : Nat :=
  if s.panicked then 0
  else
    1 + walkerSteps s.walker + (s.workers.map workerSteps).sum + closerSteps s.closer +
      collectorSteps s.collector

/-- All goroutines of the invocation have ended, `MD5All` has returned and the
channels `done` and `c` are closed. -/
def AllDone (s : State) : Prop :=
  (∃ r, s.collector = .returned r) ∧ (∃ e, s.walker = .finished e) ∧
    s.closer = .exited ∧ (∀ w ∈ s.workers, w.pc = .exited) ∧
    s.wg = 0 ∧ s.done = true ∧ s.cClosed = true ∧ s.panicked = false

/-- The function `MD5All` (lines 78-97) as a relation: the call `MD5All(root)` can
return `r`, that is, some interleaving of the goroutines brings it to return `r`. -/
def MD5All (env : Env) (root : GoString) (r : MD5AllResult) : Prop :=
  ∃ s, Reachable env root s ∧ s.collector = .returned r

/-! ## Concrete instances -/

/-- ASCII text as a Go string. -/
def ascii (s : String) : GoString :=
  s.toList.map (fun c => Fin.ofNat c.toNat)

/-- A digest function for the concrete instances: the first sixteen bytes of
the data, padded with zeros.  (The theorems hold for every digest function,
`md5.Sum` among them.) -/
def sampleSum (data : List Byte) : Digest :=
  ⟨(List.range 16).map (fun i => data.getD i 0), by simp [md5Size]⟩

/-- The tree `r` with the files `r/a.txt` ("hello") and `r/sub/b.txt`
("world"); everything can be accessed and read. -/
def okEnv : Env :=
  { md5Sum := sampleSum
    walk := fun _ =>
      [ ⟨ascii "r", false, none⟩, ⟨ascii "r/a.txt", true, none⟩,
        ⟨ascii "r/sub", false, none⟩, ⟨ascii "r/sub/b.txt", true, none⟩ ]
    readFile := fun p =>
      if p = ascii "r/a.txt" then (ascii "hello", none)
      else if p = ascii "r/sub/b.txt" then (ascii "world", none)
      else ([], some 21) }

/-- An interleaving on `okEnv` in which the digest of `r/a.txt` arrives first. -/
def okRun : List Action :=
  [.walk, .walk, .walk, .walk, .walk, .walk, .walk, .walk, .walk,
   .read 0, .deliver 0, .wgDone 0, .read 1, .deliver 1, .wgDone 1,
   .closer, .closer, .collect, .collect, .collect]

/-- An interleaving on `okEnv` in which the digest of `r/sub/b.txt` arrives first. -/
def okRun' : List Action :=
  [.walk, .walk, .read 0, .walk, .walk, .walk, .read 1, .deliver 1, .walk, .walk,
   .wgDone 1, .deliver 0, .walk, .walk, .wgDone 0, .closer, .closer,
   .collect, .collect, .collect]

/-- The state an interleaving leads to (the initial state if it cannot run). -/
def finalState (env : Env) (root : GoString) (as : List Action) : State :=
  (exec env as (State.init env root)).getD (State.init env root)

/-- The tree `r` with the files `r/a.txt`, whose read fails with error 2, and
`r/b.txt` ("world"). -/
def badEnv : Env :=
  { md5Sum := sampleSum
    walk := fun _ =>
      [ ⟨ascii "r", false, none⟩, ⟨ascii "r/a.txt", true, none⟩,
        ⟨ascii "r/b.txt", true, none⟩ ]
    readFile := fun p =>
      if p = ascii "r/b.txt" then (ascii "world", none) else ([], some 2) }

/-- An interleaving on `badEnv`: the failed read of `r/a.txt` arrives, `MD5All`
returns and closes `done` while the worker of `r/b.txt` waits in its `select`. -/
def badRun : List Action :=
  [.walk, .walk, .read 0, .deliver 0, .walk, .walk, .read 1, .collect]

/-- The tree `r` with the file `r/a.txt` ("hello") and the directory `r/sub`,
which cannot be listed (error 13). -/
def deniedEnv : Env :=
  { md5Sum := sampleSum
    walk := fun _ =>
      [ ⟨ascii "r", false, none⟩, ⟨ascii "r/a.txt", true, none⟩,
        ⟨ascii "r/sub", false, some 13⟩ ]
    readFile := fun p =>
      if p = ascii "r/a.txt" then (ascii "hello", none) else ([], some 21) }

/-- An interleaving on `deniedEnv` that runs to the end. -/
def deniedRun : List Action :=
  [.walk, .walk, .walk, .walk, .walk, .walk, .read 0, .deliver 0, .wgDone 0,
   .closer, .closer, .collect, .collect, .collect]

/-! ## The manifest writer: `fileExists`, `WriteToFile`, `calcMd5` -/

/-- The constant `filepath.Separator` (on Unix). -/
def Separator : Byte := 47

/-- The byte `.`. -/
def dot : Byte := 46

/-- What a name refers to in the file system. -/
inductive Node where
  | absent
  | dir
  | file (data : GoString)
  deriving DecidableEq

/-- What the program does that can be observed from outside, besides changing
files. -/
inductive Event where
  /-- The call `fmt.Println(s)` with a string. -/
  | println (s : GoString)
  /-- The call `fmt.Println(err)` with an error. -/
  | printlnErr (e : Err)
  /-- The call `fmt.Printf(format)` without operands. -/
  | printf (format : GoString)
  /-- The call `MD5All(root)`. -/
  | md5All (root : GoString)
  deriving DecidableEq

/-- The operating system as `calcMd5` sees it: the file system, whether
`os.Stat` fails for a name with an error other than "does not exist" (as it
does when a directory on the way cannot be searched), whether `os.Create`,
`io.WriteString` (with the number of bytes written before the failure) and
`file.Sync` fail for a file name, and the events so far. -/
structure World where
  fs : GoString → Node
  statErr : GoString → Option Nat
  createErr : GoString → Option Nat
  writeErr : GoString → Option (Nat × Nat)
  syncErr : GoString → Option Nat
  trace : List Event

/-- Record an event. -/
def World.log (w : World) (e : Event) : World :=
  { w with trace := w.trace ++ [e] }

/-- The result of `os.Stat`. -/
inductive StatResult where
  /-- An error for which `os.IsNotExist` holds. -/
  | notExist
  /-- Another error; the returned `info` is `nil`. -/
  | failed
  | info (isDir : Bool)
  deriving DecidableEq

/-- The call `os.Stat(name)`. -/
def osStat (w : World) (name : GoString) : StatResult :=
  match w.statErr name with
  | some _ => .failed
  | none =>
    match w.fs name with
    | .absent => .notExist
    | .dir => .info true
    | .file _ => .info false

/-- The function `fileExists` (lines 113-119); `none` is the nil dereference
of `info.IsDir()` when `os.Stat` failed with another error than "does not
exist". -/
def fileExists (w : World) (filename : GoString) : Option Bool :=
  match osStat w filename with
  | .notExist => some false
  | .failed => none
  | .info isDir => some (!isDir)

/-- The function `WriteToFile` (lines 99-111): the new world and the returned
error. -/
def WriteToFile (w : World) (filename data : GoString) : World × Option Err :=
  match w.createErr filename with
  | some e => (w, some (.os e))
  | none =>
    match w.writeErr filename with
    | some (n, e) =>
      ({ w with fs := Function.update w.fs filename (.file (data.take n)) }, some (.os e))
    | none =>
      ({ w with fs := Function.update w.fs filename (.file data) },
        (w.syncErr filename).map Err.os)

/-- Byte-wise `a < b` on Go strings, the order `sort.Strings` sorts by. -/
def strLess : GoString → GoString → Bool
  | _, [] => false
  | [], _ :: _ => true
  | a :: as, b :: bs => decide (a < b) || (decide (a = b) && strLess as bs)

/-- Byte-wise `a ≤ b` on Go strings. -/
def strLe (a b : GoString) : Prop :=
  strLess b a = false

instance strLe.decidableRel : DecidableRel strLe :=
  fun a b => inferInstanceAs (Decidable (strLess b a = false))

/-- The call `sort.Strings(paths)`: the paths in ascending order. -/
def sortStrings (paths : List GoString) : List GoString :=
  paths.insertionSort strLe

/-- The lower-case hexadecimal digit of `n`, as `fmt` prints it. -/
def hexDigit (n : Nat) : Byte :=
  (ascii "0123456789abcdef").getD n 0

/-- The verb `%x` applied to a byte array: two digits per byte. -/
def sprintfHex (d : Digest) : GoString :=
  d.val.flatMap (fun b => [hexDigit (b.val / 16), hexDigit (b.val % 16)])

/-- The zero value of `[md5.Size]byte`. -/
def zeroDigest : Digest :=
  ⟨List.replicate 16 0, by simp [md5Size]⟩

/-- The index expression `m[path]`, which yields the zero value for a missing key. -/
def mapIndex (m : DigestMap) (path : GoString) : Digest :=
  (mapGet m path).getD zeroDigest

/-- The value of `fmt.Sprintf("%x  %s\n", m[path], path)` (line 183). -/
def formatLine (m : DigestMap) (path : GoString) : GoString :=
  sprintfHex (mapIndex m path) ++ ascii "  " ++ path ++ ascii "\n"

/-- The first line of the manifest (line 166). -/
def banner : GoString :=
  ascii "md5 hash of directory contents v1.0\n"

/-- The loop of lines 180-187 over the sorted paths, on the world and the
buffer; `none` is the index-out-of-range panic of `path[0]` on an empty path. -/
def manifestLoop (m : DigestMap) : List GoString → World × GoString → Option (World × GoString)
  | [], acc => some acc
  | path :: rest, (w, buffer) =>
    match path with
    | [] => none
    | c :: _ =>
      if c ≠ dot then
        manifestLoop m rest (w.log (.printf (formatLine m path)), buffer ++ formatLine m path)
      else manifestLoop m rest (w, buffer)

/-- Lines 190-192: `fmt.Println(err)` when `WriteToFile` returned an error. -/
def reportErr : World × Option Err → World
  | (w, some err) => w.log (.printlnErr err)
  | (w, none) => w

/-- The function `calcMd5` (lines 150-194).  `osArgs` is `os.Args`, and
`md5All root` is what the call `MD5All(root)` returns.  The result is `none`
when the function panics. -/
def calcMd5 (osArgs : List GoString) (md5All : GoString → MD5AllResult) (w : World) :
    Option World :=
  match osArgs[1]? with
  | none => none
  | some root =>
    let md5ListFile := root ++ [Separator] ++ ascii ".md5list"
    match fileExists w md5ListFile with
    | none => none
    | some true =>
      some (w.log (.println
        (ascii ".md5list files exists. This directory already processed. Exiting.")))
    | some false =>
      if osArgs.length ≤ 1 then some (w.log (.println (ascii "Requires path as paramater")))
      else
        match md5All root with
        | (_, some err) => some ((w.log (.md5All root)).log (.printlnErr err))
        | (m, none) =>
          match manifestLoop (m.getD []) (sortStrings (mapKeys (m.getD [])))
              (w.log (.md5All root), banner) with
          | none => none
          | some (w₁, buffer) => some (reportErr (WriteToFile w₁ md5ListFile buffer))

/-- The paths that get a line in the manifest, in the order of their lines. -/
def manifestPaths (m : DigestMap) : List GoString :=
  (sortStrings (mapKeys m)).filter (fun p => decide (p.head? ≠ some dot))

/-- The text of the manifest for the map `m`. -/
def manifestText (m : DigestMap) : GoString :=
  banner ++ (manifestPaths m).flatMap (formatLine m)

/-- A world in which nothing exists yet and no operation fails. -/
def freshWorld : World :=
  { fs := fun _ => .absent
    statErr := fun _ => none
    createErr := fun _ => none
    writeErr := fun _ => none
    syncErr := fun _ => none
    trace := [] }

/-- A world in which `r/.md5list` already exists, with the content "old". -/
def processedWorld : World :=
  { freshWorld with
    fs := fun p => if p = ascii "r/.md5list" then .file (ascii "old") else .absent }

/-- A world in which `r/.md5list` exists, with the content "old", and the
directory `r` cannot be searched: `os.Stat` fails with error 13. -/
def lockedWorld : World :=
  { processedWorld with
    statErr := fun p => if p = ascii "r/.md5list" then some 13 else none }

/-- The arguments of the invocation `md5folder -m r`. -/
def flagFirstArgs : List GoString :=
  [ascii "md5folder", ascii "-m", ascii "r"]

/-- A map with a hidden file in a directory and two paths that start with a dot. -/
def dottedMap : DigestMap :=
  [(ascii "sub/.secret", sampleSum (ascii "s")), (ascii "../dir/a.txt", sampleSum (ascii "a")),
   (ascii ".git/config", sampleSum (ascii "c")), (ascii "b.txt", sampleSum (ascii "b"))]

/-- The map `MD5All` returns on `okEnv` along `okRun`. -/
def okMap : DigestMap :=
  [(ascii "r/sub/b.txt", sampleSum (ascii "world")), (ascii "r/a.txt", sampleSum (ascii "hello"))]

/-- The arguments of the invocation `md5folder r -m`. -/
def sampleArgs : List GoString :=
  [ascii "md5folder", ascii "r", ascii "-m"]

/-! ## Theorems -/

/-! ### Maps -/

theorem mapGet_mapSet (m : DigestMap) (k : GoString) (v : Digest) (q : GoString) :
    mapGet (mapSet m k v) q = if q = k then some v else mapGet m q := by
  unfold mapGet mapSet
  by_cases h : q = k
  · subst h; simp
  · have h' : ¬ k = q := fun e => h e.symm
    simp only [List.find?_cons, h', decide_False, if_neg h]
    congr 1
    rw [List.find?_filter]
    congr 1
    funext a
    by_cases hq : a.1 = q
    · have : ¬ a.1 = k := fun e => h (hq.symm.trans e)
      simp [hq, this, h]
    · simp [hq]

theorem mapKeys_mapSet_nodup (m : DigestMap) (k : GoString) (v : Digest)
    (h : (mapKeys m).Nodup) : (mapKeys (mapSet m k v)).Nodup := by
  unfold mapKeys mapSet at *
  simp only [List.map_cons, List.nodup_cons, List.mem_map, List.mem_filter, not_exists]
  refine ⟨?_, ?_⟩
  · rintro ⟨a, b⟩ ⟨⟨_, hne⟩, heq⟩
    simp at hne heq
    exact hne heq
  · exact ((List.filter_sublist _).map _).nodup h

theorem mapGet_isSome_iff (m : DigestMap) (k : GoString) :
    (mapGet m k).isSome ↔ k ∈ mapKeys m := by
  unfold mapGet mapKeys
  induction m with
  | nil => simp
  | cons a m ih =>
    by_cases h : a.1 = k
    · simp [List.find?_cons, h]
    · have h' : ¬ k = a.1 := fun e => h e.symm
      simp only [List.find?_cons, h, decide_False, List.map_cons, List.mem_cons, h', false_or]
      exact ih

/-! ### Lists of workers -/

theorem setPC_split {ws : List Worker} {i : Nat} {w : Worker} (h : ws[i]? = some w)
    (pc : WorkerPC) :
    ∃ l₁ l₂, ws = l₁ ++ w :: l₂ ∧ setPC ws i pc = l₁ ++ { w with pc := pc } :: l₂ := by
  have hi : i < ws.length := by
    by_contra hn
    rw [List.getElem?_eq_none (Nat.le_of_not_lt hn)] at h
    cases h
  obtain ⟨l₁, a, l₂, h1, h2, h3⟩ :=
    List.exists_of_modify (fun w : Worker => { w with pc := pc }) hi
  have ha : a = w := by
    subst h1; subst h2
    have h4 : (l₁ ++ a :: l₂)[l₁.length]? = some a := by
      rw [List.getElem?_append_right (le_refl _)]; simp
    rw [h4] at h
    exact Option.some.inj h
  subst ha
  exact ⟨l₁, l₂, h1, h3⟩

theorem live_eq_zero {ws : List Worker} : live ws = 0 ↔ ∀ w ∈ ws, w.pc = .exited := by
  unfold live
  induction ws with
  | nil => simp
  | cons a ws ih =>
    simp only [List.map_cons, List.sum_cons, List.mem_cons, forall_eq_or_imp]
    by_cases ha : a.pc = .exited
    · simp [ha, ih]
    · simp [ha]

theorem mapInv_append {env : Env} {ws : List Worker} {m : DigestMap} (p : GoString)
    (h : MapInv env ws m) : MapInv env (ws ++ [{ path := p, pc := .read }]) m := by
  obtain ⟨h1, h2, h3⟩ := h
  refine ⟨?_, ?_, h3⟩
  · intro w hw hps
    simp only [List.mem_append, List.mem_singleton] at hw
    rcases hw with hw | hw
    · exact h1 w hw hps
    · subst hw
      simp [Worker.pastSelect] at hps
  · intro q v hq
    obtain ⟨w, hw, hw'⟩ := h2 q v hq
    exact ⟨w, List.mem_append_left _ hw, hw'⟩

/-- Replacing a worker by one with the same path that is past its `select`
exactly when the old one was keeps the map invariant. -/
theorem mapInv_replace {env : Env} {l₁ l₂ : List Worker} {w w' : Worker} {m : DigestMap}
    (hpath : w'.path = w.path) (hps : w'.pastSelect ↔ w.pastSelect)
    (h : MapInv env (l₁ ++ w :: l₂) m) : MapInv env (l₁ ++ w' :: l₂) m := by
  obtain ⟨h1, h2, h3⟩ := h
  refine ⟨?_, ?_, h3⟩
  · intro u hu hups
    simp only [List.mem_append, List.mem_cons] at hu
    rcases hu with hu | hu | hu
    · exact h1 u (by simp [hu]) hups
    · subst hu
      rw [hpath]
      exact h1 w (by simp) (hps.mp hups)
    · exact h1 u (by simp [hu]) hups
  · intro q v hq
    obtain ⟨u, hu, hu1, hu2⟩ := h2 q v hq
    simp only [List.mem_append, List.mem_cons] at hu
    rcases hu with hu | hu | hu
    · exact ⟨u, by simp [hu], hu1, hu2⟩
    · subst hu
      exact ⟨w', by simp, hpath.trans hu1, hps.mpr hu2⟩
    · exact ⟨u, by simp [hu], hu1, hu2⟩

theorem inv_stepWalker {env : Env} {E : List WalkEntry} {s s' : State}
    (h : Inv env E s) (hs : stepWalker s = some s') : Inv env E s' := by
  obtain ⟨walker, workers, closer, collector, wg, done, cClosed, errc, panicked⟩ := s
  obtain ⟨hp, hwg, hoff, hpre, hw, hc, hcol⟩ := h
  simp only at hp hwg hoff hpre
  cases walker with
  | walking rest =>
    cases rest with
    | nil =>
      simp only [stepWalker, Option.some.injEq] at hs
      subst hs
      refine ⟨hp, hwg, hoff, hpre, ?_, hc, hcol⟩
      simp_all [WalkerInv, WalkOutcome, discovered, walkErr]
    | cons e rest =>
      obtain ⟨l, hl⟩ := hpre
      simp only [WalkerInv] at hw
      obtain ⟨hw1, hw2, hw3, hw4⟩ := hw
      cases he : e.err with
      | some x =>
        simp only [stepWalker, he, Option.some.injEq] at hs
        subst hs
        refine ⟨hp, hwg, hoff, ⟨l, hl⟩, ?_, hc, hcol⟩
        simp_all [WalkerInv, WalkOutcome, discovered, walkErr]
      | none =>
        by_cases hr : e.regular = true
        · simp only [stepWalker, he, hr, if_true, Option.some.injEq] at hs
          subst hs
          refine ⟨hp, ?_, ?_, ?_, ?_, ?_, ?_⟩
          · simp [live, hwg]
          · intro w hw r hr'
            simp only [List.mem_append, List.mem_singleton] at hw
            rcases hw with hw | hw
            · exact hoff w hw r hr'
            · subst hw; cases hr'
          · exact ⟨discovered rest, by simpa [paths, discovered, he, hr] using hw1⟩
          · simp only [WalkerInv]
            refine ⟨?_, ?_, hw3, hw4⟩
            · simpa [paths, discovered, he, hr] using hw1
            · simpa [walkErr, he] using hw2
          · simp only [CloserInv] at hc ⊢
            subst hw3
            simpa using hc
          · cases collector with
            | ranging m => exact ⟨hcol.1, mapInv_append _ hcol.2⟩
            | recvErrc m => exact ⟨hcol.1, mapInv_append _ hcol.2.1, hcol.2.2⟩
            | closeDone r => exact hcol
            | returned r => exact hcol
        · rw [Bool.not_eq_true] at hr
          simp only [stepWalker, he, hr, Bool.false_eq_true, if_false, Option.some.injEq] at hs
          subst hs
          refine ⟨hp, hwg, hoff, ⟨l, hl⟩, ?_, hc, hcol⟩
          simp_all [WalkerInv, WalkOutcome, discovered, walkErr]
  | checkDone rest =>
    simp only [WalkerInv] at hw
    obtain ⟨hw1, hw2, hw3, hw4⟩ := hw
    cases hd : done with
    | true =>
      subst hd
      simp only [stepWalker, if_true, Option.some.injEq] at hs
      subst hs
      exact ⟨hp, hwg, hoff, hpre, by simp [WalkerInv, WalkOutcome, hw3, hw4], hc, hcol⟩
    | false =>
      subst hd
      simp only [stepWalker, Option.some.injEq] at hs
      simp at hs
      subst hs
      exact ⟨hp, hwg, hoff, hpre, by simp [WalkerInv, hw1, hw2, hw3, hw4], hc, hcol⟩
  | walkReturned err =>
    simp only [WalkerInv] at hw
    obtain ⟨hw1, hw2, hw3⟩ := hw
    simp only [stepWalker, Option.some.injEq] at hs
    subst hs
    refine ⟨hp, hwg, hoff, hpre, ?_, ?_, hcol⟩
    · simp only [WalkerInv]
      exact ⟨hw1, by simp, hw3⟩
    · subst hw2
      simpa [CloserInv] using hc
  | sendErr err =>
    simp only [WalkerInv] at hw
    obtain ⟨hw1, hw2, hw3⟩ := hw
    subst hw3
    simp only [stepWalker, Option.some.injEq] at hs
    subst hs
    refine ⟨hp, hwg, hoff, hpre, ?_, hc, hcol⟩
    simp only [WalkerInv]
    exact ⟨hw1, hw2, by simp⟩
  | finished err => simp [stepWalker] at hs

theorem inv_stepCloser {env : Env} {E : List WalkEntry} {s s' : State}
    (h : Inv env E s) (hs : stepCloser s = some s') : Inv env E s' := by
  obtain ⟨walker, workers, closer, collector, wg, done, cClosed, errc, panicked⟩ := s
  obtain ⟨hp, hwg, hoff, hpre, hw, hc, hcol⟩ := h
  simp only at hp hwg hoff hpre
  cases closer with
  | notStarted => simp [stepCloser] at hs
  | waiting =>
    by_cases h0 : wg = 0
    · subst h0
      simp only [stepCloser, if_true, Option.some.injEq] at hs
      subst hs
      refine ⟨hp, hwg, hoff, hpre, ?_, ?_, hcol⟩
      · cases walker <;> simp_all [WalkerInv]
      · simp only [CloserInv] at hc ⊢
        exact ⟨hc, live_eq_zero.mp hwg.symm⟩
    · simp [stepCloser, h0] at hs
  | closing =>
    simp only [CloserInv] at hc
    obtain ⟨hc1, hc2⟩ := hc
    subst hc1
    simp only [stepCloser, Bool.false_eq_true, if_false, Option.some.injEq] at hs
    subst hs
    refine ⟨hp, hwg, hoff, hpre, ?_, ?_, ?_⟩
    · cases walker <;> simp_all [WalkerInv]
    · simpa [CloserInv] using hc2
    · cases collector with
      | ranging m => exact hcol
      | recvErrc m => exact ⟨hcol.1, hcol.2.1, rfl⟩
      | closeDone r => exact hcol
      | returned r => exact hcol
  | exited => simp [stepCloser] at hs

theorem resultSpec_of_walk {env : Env} {E : List WalkEntry} {ws : List Worker} {m : DigestMap}
    {err : Option Err} (hout : WalkOutcome E ws false err) (hm : MapInv env ws m)
    (hex : ∀ w ∈ ws, w.pc = .exited) :
    ResultSpec env E (match err with | some e => (none, some e) | none => (some m, none)) := by
  obtain ⟨h1, h2, h3⟩ := hm
  have hread : ∀ p ∈ paths ws, (env.readFile p).2 = none ∧ mapGet m p = some (digestOf env p) := by
    intro p hp
    simp only [paths, List.mem_map] at hp
    obtain ⟨w, hw, rfl⟩ := hp
    exact h1 w hw (Or.inr (hex w hw))
  cases err with
  | none =>
    obtain ⟨ho1, ho2⟩ := hout
    rw [ho1] at hread
    refine ⟨ho2, fun p hp => (hread p hp).1, ?_, h3⟩
    intro p
    by_cases hp : p ∈ discovered E
    · simp [hp, (hread p hp).2]
    · simp only [hp, if_false]
      cases hg : mapGet m p with
      | none => rfl
      | some v =>
        obtain ⟨w, hw, hw1, _⟩ := h2 p v hg
        exact absurd (ho1 ▸ (by simp only [paths, List.mem_map]; exact ⟨w, hw, hw1⟩)) hp
  | some e =>
    cases e with
    | os x =>
      obtain ⟨ho1, ho2⟩ := hout
      rw [ho1] at hread
      exact Or.inr ⟨ho2, fun p hp => (hread p hp).1⟩
    | walkCanceled => simp [WalkOutcome] at hout

theorem inv_stepCollector {env : Env} {E : List WalkEntry} {s s' : State}
    (h : Inv env E s) (hs : stepCollector s = some s') : Inv env E s' := by
  obtain ⟨walker, workers, closer, collector, wg, done, cClosed, errc, panicked⟩ := s
  obtain ⟨hp, hwg, hoff, hpre, hw, hc, hcol⟩ := h
  simp only at hp hwg hoff hpre
  cases collector with
  | ranging m =>
    cases hcc : cClosed with
    | false => subst hcc; simp [stepCollector] at hs
    | true =>
      subst hcc
      simp only [stepCollector, if_true, Option.some.injEq] at hs
      subst hs
      refine ⟨hp, hwg, hoff, hpre, ?_, hc, ⟨hcol.1, hcol.2, rfl⟩⟩
      cases walker <;> simp_all [WalkerInv, CollectorPC.ret]
  | recvErrc m =>
    obtain ⟨hd, hm, hcc⟩ := hcol
    simp only at hd hm hcc
    subst hd; subst hcc
    have hex : ∀ w ∈ workers, w.pc = .exited := by
      cases closer <;> simp_all [CloserInv]
    cases errc with
    | none => simp [stepCollector] at hs
    | some err =>
      have hwalk : walker = .finished err := by
        cases walker <;> simp_all [WalkerInv, CollectorPC.ret]
      subst hwalk
      simp only [WalkerInv] at hw
      have hspec := resultSpec_of_walk hw.1 hm hex
      cases err with
      | none =>
        simp only [stepCollector, Option.some.injEq] at hs
        subst hs
        refine ⟨hp, hwg, hoff, hpre, ?_, hc, ⟨rfl, hspec⟩⟩
        simp only [WalkerInv]
        exact ⟨hw.1, hw.2.1, by simp [CollectorPC.ret]⟩
      | some e =>
        simp only [stepCollector, Option.some.injEq] at hs
        subst hs
        refine ⟨hp, hwg, hoff, hpre, ?_, hc, ⟨rfl, hspec⟩⟩
        simp only [WalkerInv]
        exact ⟨hw.1, hw.2.1, by simp [CollectorPC.ret]⟩
  | closeDone r =>
    obtain ⟨hd, hr⟩ := hcol
    simp only at hd hr
    subst hd
    simp only [stepCollector, Bool.false_eq_true, if_false, Option.some.injEq] at hs
    subst hs
    refine ⟨hp, hwg, hoff, hpre, ?_, hc, ⟨rfl, hr⟩⟩
    cases walker with
    | walking rest => exact hw
    | checkDone rest => exact hw
    | walkReturned err =>
      refine ⟨?_, hw.2⟩
      cases err with
      | none => exact hw.1
      | some e => cases e with
        | os x => exact hw.1
        | walkCanceled => rfl
    | sendErr err =>
      refine ⟨?_, hw.2⟩
      cases err with
      | none => exact hw.1
      | some e => cases e with
        | os x => exact hw.1
        | walkCanceled => rfl
    | finished err =>
      refine ⟨?_, hw.2.1, ?_⟩
      · cases err with
        | none => exact hw.1
        | some e => cases e with
          | os x => exact hw.1
          | walkCanceled => rfl
      · rcases hw.2.2 with h1 | h1
        · exact Or.inl h1
        · exact Or.inr ⟨h1.1, rfl⟩
  | returned r => simp [stepCollector] at hs

theorem paths_replace {l₁ l₂ : List Worker} {w w' : Worker} (hpath : w'.path = w.path) :
    paths (l₁ ++ w' :: l₂) = paths (l₁ ++ w :: l₂) := by
  simp [paths, hpath]

theorem live_split (l₁ l₂ : List Worker) (w : Worker) :
    live (l₁ ++ w :: l₂) = live l₁ + (if w.pc = .exited then 0 else 1) + live l₂ := by
  simp [live, List.sum_append, Nat.add_assoc]

theorem steps_split (l₁ l₂ : List Worker) (w : Worker) :
    ((l₁ ++ w :: l₂).map workerSteps).sum =
      (l₁.map workerSteps).sum + workerSteps w + (l₂.map workerSteps).sum := by
  simp [List.sum_append, Nat.add_assoc]

/-- While some worker has not ended, the closer has not passed `wg.Wait()`,
so its invariant does not depend on the list of workers. -/
theorem closerInv_frame {s s' : State} {w : Worker} (hc : CloserInv s) (hw : w ∈ s.workers)
    (hne : w.pc ≠ .exited) (h1 : s'.closer = s.closer)
    (h2 : s'.cClosed = s.cClosed) : CloserInv s' := by
  unfold CloserInv at hc ⊢
  rw [h1, h2]
  cases hcl : s.closer with
  | notStarted => rw [hcl] at hc; exact hc
  | waiting => rw [hcl] at hc; exact hc
  | closing => rw [hcl] at hc; exact absurd (hc.2 w hw) hne
  | exited => rw [hcl] at hc; exact absurd (hc.2 w hw) hne

/-- While some worker has not ended, the channel `c` is open. -/
theorem open_of_live {s : State} {w : Worker} (hc : CloserInv s) (hw : w ∈ s.workers)
    (hne : w.pc ≠ .exited) : s.cClosed = false := by
  unfold CloserInv at hc
  cases hcl : s.closer with
  | notStarted => rw [hcl] at hc; exact hc
  | waiting => rw [hcl] at hc; exact hc
  | closing => rw [hcl] at hc; exact absurd (hc.2 w hw) hne
  | exited => rw [hcl] at hc; exact absurd (hc.2 w hw) hne

/-- The walker invariant depends only on the paths of the workers. -/
theorem walkerInv_frame {E : List WalkEntry} {s s' : State} (hw : WalkerInv E s)
    (h1 : s'.walker = s.walker) (h2 : paths s'.workers = paths s.workers)
    (h3 : s'.closer = s.closer) (h4 : s'.errc = s.errc) (h5 : s'.done = s.done)
    (h6 : s.collector.ret.isSome → s'.collector.ret.isSome) : WalkerInv E s' := by
  unfold WalkerInv at hw ⊢
  rw [h1, h3, h4, h5]
  cases hwk : s.walker with
  | walking rest => rw [hwk] at hw; simpa [h2] using hw
  | checkDone rest => rw [hwk] at hw; simpa [h2] using hw
  | walkReturned err =>
    rw [hwk] at hw
    refine ⟨?_, hw.2⟩
    cases err with
    | none => simpa [WalkOutcome, h2] using hw.1
    | some e => cases e <;> simpa [WalkOutcome, h2] using hw.1
  | sendErr err =>
    rw [hwk] at hw
    refine ⟨?_, hw.2⟩
    cases err with
    | none => simpa [WalkOutcome, h2] using hw.1
    | some e => cases e <;> simpa [WalkOutcome, h2] using hw.1
  | finished err =>
    rw [hwk] at hw
    refine ⟨?_, hw.2.1, ?_⟩
    · cases err with
      | none => simpa [WalkOutcome, h2] using hw.1
      | some e => cases e <;> simpa [WalkOutcome, h2] using hw.1
    · rcases hw.2.2 with h | h
      · exact Or.inl h
      · exact Or.inr ⟨h.1, h6 h.2⟩

theorem collectorInv_replace {env : Env} {E : List WalkEntry} {s s' : State}
    {l₁ l₂ : List Worker} {w w' : Worker} (hcol : CollectorInv env E s)
    (hs : s.workers = l₁ ++ w :: l₂) (hs' : s'.workers = l₁ ++ w' :: l₂)
    (hpath : w'.path = w.path) (hps : w'.pastSelect ↔ w.pastSelect)
    (h1 : s'.collector = s.collector) (h2 : s'.done = s.done) (h3 : s'.cClosed = s.cClosed) :
    CollectorInv env E s' := by
  unfold CollectorInv at hcol ⊢
  rw [h1, h2, h3, hs']
  rw [hs] at hcol
  cases hc : s.collector with
  | ranging m => rw [hc] at hcol; exact ⟨hcol.1, mapInv_replace hpath hps hcol.2⟩
  | recvErrc m => rw [hc] at hcol; exact ⟨hcol.1, mapInv_replace hpath hps hcol.2.1, hcol.2.2⟩
  | closeDone r => rw [hc] at hcol; exact hcol
  | returned r => rw [hc] at hcol; exact hcol

theorem offerOk_replace {env : Env} {l₁ l₂ : List Worker} {w w' : Worker}
    (hoff : ∀ u ∈ l₁ ++ w :: l₂, ∀ r, u.pc = .offer r → r = mkResult env u.path)
    (hw' : ∀ r, w'.pc = .offer r → r = mkResult env w'.path) :
    ∀ u ∈ l₁ ++ w' :: l₂, ∀ r, u.pc = .offer r → r = mkResult env u.path := by
  intro u hu r hr
  simp only [List.mem_append, List.mem_cons] at hu
  rcases hu with hu | hu | hu
  · exact hoff u (by simp [hu]) r hr
  · subst hu; exact hw' r hr
  · exact hoff u (by simp [hu]) r hr

theorem inv_read {env : Env} {E : List WalkEntry} {s : State} {i : Nat} {p : GoString}
    (h : Inv env E s) (hget : s.workers[i]? = some ⟨p, .read⟩) :
    Inv env E { s with workers := setPC s.workers i (.offer (mkResult env p)) } := by
  obtain ⟨hp, hwg, hoff, hpre, hw, hc, hcol⟩ := h
  obtain ⟨l₁, l₂, h1, h2⟩ := setPC_split hget (.offer (mkResult env p))
  have hmem : (⟨p, .read⟩ : Worker) ∈ s.workers := by rw [h1]; simp
  have hpaths : paths (setPC s.workers i (.offer (mkResult env p))) = paths s.workers := by
    rw [h2, h1]; exact paths_replace rfl
  refine ⟨hp, ?_, ?_, ?_, walkerInv_frame hw rfl hpaths rfl rfl rfl (fun h => h),
    closerInv_frame hc hmem (by simp) rfl rfl, ?_⟩
  · simp only [h2]; rw [hwg, h1]; simp [live_split]
  · simp only [h2]; rw [h1] at hoff
    exact offerOk_replace hoff (by intro r hr; simp at hr; rw [← hr])
  · simp only [hpaths]; exact hpre
  · exact collectorInv_replace hcol h1 h2 rfl (by simp [Worker.pastSelect]) rfl rfl rfl

theorem inv_abandon {env : Env} {E : List WalkEntry} {s : State} {i : Nat} {p : GoString}
    {r : result} (h : Inv env E s) (hget : s.workers[i]? = some ⟨p, .offer r⟩)
    (hd : s.done = true) :
    Inv env E { s with workers := setPC s.workers i .wgDone } := by
  obtain ⟨hp, hwg, hoff, hpre, hw, hc, hcol⟩ := h
  obtain ⟨l₁, l₂, h1, h2⟩ := setPC_split hget .wgDone
  have hmem : (⟨p, .offer r⟩ : Worker) ∈ s.workers := by rw [h1]; simp
  have hpaths : paths (setPC s.workers i .wgDone) = paths s.workers := by
    rw [h2, h1]; exact paths_replace rfl
  refine ⟨hp, ?_, ?_, ?_, walkerInv_frame hw rfl hpaths rfl rfl rfl (fun h => h),
    closerInv_frame hc hmem (by simp) rfl rfl, ?_⟩
  · simp only [h2]; rw [hwg, h1]; simp [live_split]
  · simp only [h2]; rw [h1] at hoff
    exact offerOk_replace hoff (by intro r hr; simp at hr)
  · simp only [hpaths]; exact hpre
  · unfold CollectorInv at hcol ⊢
    cases hcl : s.collector with
    | ranging m => rw [hcl] at hcol; rw [hd] at hcol; exact absurd hcol.1 (by simp)
    | recvErrc m => rw [hcl] at hcol; rw [hd] at hcol; exact absurd hcol.1 (by simp)
    | closeDone r => rw [hcl] at hcol; simpa [hcl] using hcol
    | returned r => rw [hcl] at hcol; simpa [hcl] using hcol

theorem inv_wgDone {env : Env} {E : List WalkEntry} {s : State} {i : Nat} {p : GoString}
    (h : Inv env E s) (hget : s.workers[i]? = some ⟨p, .wgDone⟩) :
    s.wg ≠ 0 ∧ Inv env E { s with wg := s.wg - 1, workers := setPC s.workers i .exited } := by
  obtain ⟨hp, hwg, hoff, hpre, hw, hc, hcol⟩ := h
  obtain ⟨l₁, l₂, h1, h2⟩ := setPC_split hget .exited
  have hmem : (⟨p, .wgDone⟩ : Worker) ∈ s.workers := by rw [h1]; simp
  have hpaths : paths (setPC s.workers i .exited) = paths s.workers := by
    rw [h2, h1]; exact paths_replace rfl
  have hlive : s.wg = live l₁ + 1 + live l₂ := by rw [hwg, h1]; simp [live_split]
  refine ⟨by omega, hp, ?_, ?_, ?_, walkerInv_frame hw rfl hpaths rfl rfl rfl (fun h => h),
    closerInv_frame hc hmem (by simp) rfl rfl, ?_⟩
  · simp only [h2]; rw [hlive]; simp [live_split]
  · simp only [h2]; rw [h1] at hoff
    exact offerOk_replace hoff (by intro r hr; simp at hr)
  · simp only [hpaths]; exact hpre
  · exact collectorInv_replace hcol h1 h2 rfl (by simp [Worker.pastSelect]) rfl rfl rfl

theorem mem_paths_discovered {E : List WalkEntry} {ws : List Worker} {w : Worker}
    (hpre : ∃ l, paths ws ++ l = discovered E) (hw : w ∈ ws) : w.path ∈ discovered E := by
  obtain ⟨l, hl⟩ := hpre
  rw [← hl]
  exact List.mem_append_left _ (by simp only [paths, List.mem_map]; exact ⟨w, hw, rfl⟩)

theorem mapInv_deliver {env : Env} {l₁ l₂ : List Worker} {p : GoString} {r : result}
    {m : DigestMap} (hm : MapInv env (l₁ ++ ⟨p, .offer r⟩ :: l₂) m)
    (hr : (env.readFile p).2 = none) :
    MapInv env (l₁ ++ ⟨p, .wgDone⟩ :: l₂) (mapSet m p (digestOf env p)) := by
  obtain ⟨h1, h2, h3⟩ := hm
  refine ⟨?_, ?_, mapKeys_mapSet_nodup _ _ _ h3⟩
  · intro u hu hups
    rw [mapGet_mapSet]
    by_cases hup : u.path = p
    · rw [hup] at *
      simp [hr]
    · simp only [hup, if_false]
      simp only [List.mem_append, List.mem_cons] at hu
      rcases hu with hu | hu | hu
      · exact h1 u (by simp [hu]) hups
      · subst hu; exact absurd rfl hup
      · exact h1 u (by simp [hu]) hups
  · intro q v hq
    rw [mapGet_mapSet] at hq
    by_cases hqp : q = p
    · exact ⟨⟨p, .wgDone⟩, by simp, hqp.symm, Or.inl rfl⟩
    · simp only [hqp, if_false] at hq
      obtain ⟨u, hu, hu1, hu2⟩ := h2 q v hq
      simp only [List.mem_append, List.mem_cons] at hu
      rcases hu with hu | hu | hu
      · exact ⟨u, by simp [hu], hu1, hu2⟩
      · subst hu; simp [Worker.pastSelect] at hu2
      · exact ⟨u, by simp [hu], hu1, hu2⟩

theorem inv_deliver {env : Env} {E : List WalkEntry} {s : State} {i : Nat} {p : GoString}
    {r : result} {m : DigestMap} (h : Inv env E s) (hget : s.workers[i]? = some ⟨p, .offer r⟩)
    (hcl : s.collector = .ranging m) :
    Inv env E { s with workers := setPC s.workers i .wgDone, collector := collectResult m r } := by
  obtain ⟨hp, hwg, hoff, hpre, hw, hc, hcol⟩ := h
  obtain ⟨l₁, l₂, h1, h2⟩ := setPC_split hget .wgDone
  have hmem : (⟨p, .offer r⟩ : Worker) ∈ s.workers := by rw [h1]; simp
  have hpaths : paths (setPC s.workers i .wgDone) = paths s.workers := by
    rw [h2, h1]; exact paths_replace rfl
  have hr : r = mkResult env p := hoff _ hmem r rfl
  refine ⟨hp, ?_, ?_, ?_, walkerInv_frame hw rfl hpaths rfl rfl rfl ?_,
    closerInv_frame hc hmem (by simp) rfl rfl, ?_⟩
  · simp only [h2]; rw [hwg, h1]; simp [live_split]
  · simp only [h2]; rw [h1] at hoff
    exact offerOk_replace hoff (by intro r hr; simp at hr)
  · simp only [hpaths]; exact hpre
  · rw [hcl]; simp [CollectorPC.ret]
  · unfold CollectorInv at hcol ⊢
    rw [hcl] at hcol
    obtain ⟨hd, hm⟩ := hcol
    rw [h1] at hm
    simp only [h2]
    subst hr
    cases hrd : (env.readFile p).2 with
    | none =>
      have : collectResult m (mkResult env p) = .ranging (mapSet m p (digestOf env p)) := by
        simp [collectResult, mkResult, hrd, digestOf]
      rw [this]
      exact ⟨hd, mapInv_deliver hm hrd⟩
    | some x =>
      have : collectResult m (mkResult env p) = .closeDone (none, some (.os x)) := by
        simp [collectResult, mkResult, hrd]
      rw [this]
      exact ⟨hd, Or.inl ⟨p, mem_paths_discovered hpre hmem, hrd⟩⟩

theorem inv_stepWorker {env : Env} {E : List WalkEntry} {a : Action} {s s' : State}
    (h : Inv env E s) (hs : stepWorker env a s = some s') : Inv env E s' := by
  cases a with
  | walk => simp [stepWorker] at hs
  | closer => simp [stepWorker] at hs
  | collect => simp [stepWorker] at hs
  | read i =>
    simp only [stepWorker] at hs
    split at hs
    · rename_i p hget
      cases hs
      exact inv_read h hget
    · cases hs
  | deliver i =>
    simp only [stepWorker] at hs
    split at hs
    · rename_i p r m hget hcl
      split at hs
      · cases hs
      · cases hs
        exact inv_deliver h hget hcl
    · cases hs
  | abandon i =>
    simp only [stepWorker] at hs
    split at hs
    · rename_i p r hget
      split at hs
      · rename_i hd
        cases hs
        exact inv_abandon h hget hd
      · cases hs
    · cases hs
  | sendClosed i =>
    simp only [stepWorker] at hs
    split at hs
    · rename_i p r hget
      split at hs
      · rename_i hcc
        obtain ⟨l₁, l₂, h1, _⟩ := setPC_split hget .wgDone
        have hmem : (⟨p, .offer r⟩ : Worker) ∈ s.workers := by rw [h1]; simp
        have := open_of_live h.closerOk hmem (by simp)
        rw [this] at hcc
        cases hcc
      · cases hs
    · cases hs
  | wgDone i =>
    simp only [stepWorker] at hs
    split at hs
    · rename_i p hget
      have := inv_wgDone h hget
      split at hs
      · rename_i h0
        exact absurd h0 this.1
      · cases hs
        exact this.2
    · cases hs

theorem inv_step {env : Env} {E : List WalkEntry} {a : Action} {s s' : State}
    (h : Inv env E s) (hs : step env a s = some s') : Inv env E s' := by
  unfold step at hs
  rw [h.noPanic] at hs
  simp only [Bool.false_eq_true, if_false] at hs
  cases a with
  | walk => exact inv_stepWalker h hs
  | closer => exact inv_stepCloser h hs
  | collect => exact inv_stepCollector h hs
  | read i => exact inv_stepWorker h hs
  | deliver i => exact inv_stepWorker h hs
  | abandon i => exact inv_stepWorker h hs
  | sendClosed i => exact inv_stepWorker h hs
  | wgDone i => exact inv_stepWorker h hs

theorem inv_init (env : Env) (root : GoString) :
    Inv env (env.walk root) (State.init env root) := by
  refine ⟨rfl, rfl, ?_, ⟨discovered (env.walk root), rfl⟩, ?_, rfl, ?_⟩
  · intro w hw
    simp [State.init] at hw
  · exact ⟨rfl, rfl, rfl, rfl⟩
  · refine ⟨rfl, ?_, ?_, List.nodup_nil⟩
    · intro w hw
      simp [State.init] at hw
    · intro p v hv
      simp [mapGet] at hv

theorem inv_exec {env : Env} {E : List WalkEntry} :
    ∀ (as : List Action) (s s' : State), Inv env E s → exec env as s = some s' → Inv env E s'
  | [], s, s', h, hs => by
    simp only [exec, Option.some.injEq] at hs
    exact hs ▸ h
  | a :: as, s, s', h, hs => by
    simp only [exec] at hs
    cases hst : step env a s with
    | none => rw [hst] at hs; cases hs
    | some t =>
      rw [hst] at hs
      exact inv_exec as t s' (inv_step h hst) hs

theorem inv_of_reachable {env : Env} {root : GoString} {s : State}
    (h : Reachable env root s) : Inv env (env.walk root) s := by
  obtain ⟨as, has⟩ := h
  exact inv_exec as _ _ (inv_init env root) has

/-! ### Termination -/

theorem steps_setPC {ws : List Worker} {i : Nat} {w : Worker} (h : ws[i]? = some w)
    (pc : WorkerPC) :
    ((setPC ws i pc).map workerSteps).sum + workerSteps w =
      (ws.map workerSteps).sum + workerSteps { w with pc := pc } := by
  obtain ⟨l₁, l₂, h1, h2⟩ := setPC_split h pc
  rw [h2, h1, steps_split, steps_split]
  omega

theorem measure_stepWalker {s s' : State} (hp : s.panicked = false)
    (hs : stepWalker s = some s') : measure s' < measure s := by
  obtain ⟨walker, workers, closer, collector, wg, done, cClosed, errc, panicked⟩ := s
  simp only at hp
  subst hp
  cases walker with
  | walking rest =>
    cases rest with
    | nil =>
      simp only [stepWalker, Option.some.injEq] at hs
      subst hs
      simp [measure, walkerSteps, closerSteps, collectorSteps]
    | cons e rest =>
      cases he : e.err with
      | some x =>
        simp only [stepWalker, he, Option.some.injEq] at hs
        subst hs
        simp [measure, walkerSteps, closerSteps, collectorSteps]
        omega
      | none =>
        cases hr : e.regular with
        | true =>
          simp only [stepWalker, he, hr, if_true, Option.some.injEq] at hs
          subst hs
          simp [measure, walkerSteps, closerSteps, collectorSteps, workerSteps]
          omega
        | false =>
          simp only [stepWalker, he, hr, Bool.false_eq_true, if_false, Option.some.injEq] at hs
          subst hs
          simp [measure, walkerSteps, closerSteps, collectorSteps]
  | checkDone rest =>
    cases done with
    | true =>
      simp only [stepWalker, if_true, Option.some.injEq] at hs
      subst hs
      simp [measure, walkerSteps, closerSteps, collectorSteps]
      omega
    | false =>
      simp only [stepWalker, Bool.false_eq_true, if_false, Option.some.injEq] at hs
      subst hs
      simp [measure, walkerSteps, closerSteps, collectorSteps]
  | walkReturned err =>
    simp only [stepWalker, Option.some.injEq] at hs
    subst hs
    cases closer <;> simp [measure, walkerSteps, closerSteps, collectorSteps] <;> omega
  | sendErr err =>
    cases errc with
    | none =>
      simp only [stepWalker, Option.some.injEq] at hs
      subst hs
      simp [measure, walkerSteps, closerSteps, collectorSteps]
    | some e => simp [stepWalker] at hs
  | finished err => simp [stepWalker] at hs

theorem measure_stepCloser {s s' : State} (hp : s.panicked = false)
    (hs : stepCloser s = some s') : measure s' < measure s := by
  obtain ⟨walker, workers, closer, collector, wg, done, cClosed, errc, panicked⟩ := s
  simp only at hp
  subst hp
  cases closer with
  | notStarted => simp [stepCloser] at hs
  | waiting =>
    by_cases h0 : wg = 0
    · simp only [stepCloser, h0, if_true, Option.some.injEq] at hs
      subst hs
      simp [measure, walkerSteps, closerSteps, collectorSteps]
    · simp [stepCloser, h0] at hs
  | closing =>
    cases cClosed with
    | true =>
      simp only [stepCloser, if_true, Option.some.injEq] at hs
      subst hs
      simp [measure, walkerSteps, closerSteps, collectorSteps]
    | false =>
      simp only [stepCloser, Bool.false_eq_true, if_false, Option.some.injEq] at hs
      subst hs
      simp [measure, walkerSteps, closerSteps, collectorSteps]
  | exited => simp [stepCloser] at hs

theorem measure_stepCollector {s s' : State} (hp : s.panicked = false)
    (hs : stepCollector s = some s') : measure s' < measure s := by
  obtain ⟨walker, workers, closer, collector, wg, done, cClosed, errc, panicked⟩ := s
  simp only at hp
  subst hp
  cases collector with
  | ranging m =>
    cases cClosed with
    | true =>
      simp only [stepCollector, if_true, Option.some.injEq] at hs
      subst hs
      simp [measure, walkerSteps, closerSteps, collectorSteps]
    | false => simp [stepCollector] at hs
  | recvErrc m =>
    cases errc with
    | none => simp [stepCollector] at hs
    | some err =>
      cases err with
      | none =>
        simp only [stepCollector, Option.some.injEq] at hs
        subst hs
        simp [measure, walkerSteps, closerSteps, collectorSteps]
      | some e =>
        simp only [stepCollector, Option.some.injEq] at hs
        subst hs
        simp [measure, walkerSteps, closerSteps, collectorSteps]
  | closeDone r =>
    cases done with
    | true =>
      simp only [stepCollector, if_true, Option.some.injEq] at hs
      subst hs
      simp [measure, walkerSteps, closerSteps, collectorSteps]
    | false =>
      simp only [stepCollector, Bool.false_eq_true, if_false, Option.some.injEq] at hs
      subst hs
      simp [measure, walkerSteps, closerSteps, collectorSteps]
  | returned r => simp [stepCollector] at hs

theorem measure_setPC {s : State} {i : Nat} {w : Worker} {pc : WorkerPC} (col : CollectorPC)
    (wg : Nat) (hp : s.panicked = false) (hget : s.workers[i]? = some w)
    (hlt : workerSteps { w with pc := pc } < workerSteps w)
    (hcol : collectorSteps col ≤ collectorSteps s.collector) :
    measure { s with workers := setPC s.workers i pc, collector := col, wg := wg } <
      measure s := by
  have h1 := steps_setPC hget pc
  obtain ⟨walker, workers, closer, collector, wg0, done, cClosed, errc, panicked⟩ := s
  simp only at hp hget h1 hcol
  subst hp
  simp only [measure, Bool.false_eq_true, if_false]
  omega

theorem measure_stepWorker {env : Env} {a : Action} {s s' : State} (hp : s.panicked = false)
    (hs : stepWorker env a s = some s') : measure s' < measure s := by
  have hpos : 0 < measure s := by simp only [measure, hp, Bool.false_eq_true, if_false]; omega
  have hpanic : measure { s with panicked := true } < measure s := by
    simpa [measure] using hpos
  cases a with
  | walk => simp [stepWorker] at hs
  | closer => simp [stepWorker] at hs
  | collect => simp [stepWorker] at hs
  | read i =>
    simp only [stepWorker] at hs
    split at hs
    · rename_i p hget
      cases hs
      exact measure_setPC s.collector s.wg hp hget (by simp [workerSteps]) (le_refl _)
    · cases hs
  | deliver i =>
    simp only [stepWorker] at hs
    split at hs
    · rename_i p r m hget hcl
      split at hs
      · cases hs
      · cases hs
        exact measure_setPC _ s.wg hp hget (by simp [workerSteps])
          (by rw [hcl]; unfold collectResult; split <;> simp [collectorSteps])
    · cases hs
  | abandon i =>
    simp only [stepWorker] at hs
    split at hs
    · rename_i p r hget
      split at hs
      · cases hs
        exact measure_setPC s.collector s.wg hp hget (by simp [workerSteps]) (le_refl _)
      · cases hs
    · cases hs
  | sendClosed i =>
    simp only [stepWorker] at hs
    split at hs
    · split at hs
      · cases hs; exact hpanic
      · cases hs
    · cases hs
  | wgDone i =>
    simp only [stepWorker] at hs
    split at hs
    · rename_i p hget
      split at hs
      · cases hs; exact hpanic
      · cases hs
        exact measure_setPC s.collector _ hp hget (by simp [workerSteps]) (le_refl _)
    · cases hs

theorem measure_step {env : Env} {a : Action} {s s' : State}
    (hs : step env a s = some s') : measure s' < measure s := by
  unfold step at hs
  cases hp : s.panicked with
  | true => rw [hp] at hs; simp at hs
  | false =>
    rw [hp] at hs
    simp only [Bool.false_eq_true, if_false] at hs
    cases a with
    | walk => exact measure_stepWalker hp hs
    | closer => exact measure_stepCloser hp hs
    | collect => exact measure_stepCollector hp hs
    | read i => exact measure_stepWorker hp hs
    | deliver i => exact measure_stepWorker hp hs
    | abandon i => exact measure_stepWorker hp hs
    | sendClosed i => exact measure_stepWorker hp hs
    | wgDone i => exact measure_stepWorker hp hs

/-- No interleaving is longer than the measure of the state it starts in. -/
theorem exec_length_le {env : Env} :
    ∀ (as : List Action) (s s' : State), exec env as s = some s' →
      as.length + measure s' ≤ measure s
  | [], s, s', hs => by
    simp only [exec, Option.some.injEq] at hs
    subst hs; simp
  | a :: as, s, s', hs => by
    simp only [exec] at hs
    cases hst : step env a s with
    | none => rw [hst] at hs; cases hs
    | some t =>
      rw [hst] at hs
      have h1 := exec_length_le as t s' hs
      have h2 := measure_step hst
      simp only [List.length_cons]
      omega

/-! ### Progress -/

/-- In a reachable state in which not every goroutine has ended, some goroutine
can take a step: the pipeline has no deadlock. -/
theorem progress {env : Env} {E : List WalkEntry} {s : State} (h : Inv env E s)
    (hnd : ¬ AllDone s) : ∃ a s', step env a s = some s' := by
  obtain ⟨hp, hwg, hoff, hpre, hw, hc, hcol⟩ := h
  have hstep : ∀ a, step env a s =
      (match a with
        | .walk => stepWalker s
        | .closer => stepCloser s
        | .collect => stepCollector s
        | a => stepWorker env a s) := by
    intro a; unfold step; rw [hp]; simp
  obtain ⟨walker, workers, closer, collector, wg, done, cClosed, errc, panicked⟩ := s
  simp only at hp hwg hoff hpre
  subst hp
  -- the walker can always move until it has ended
  cases walker with
  | walking rest =>
    refine ⟨.walk, ?_⟩
    rw [hstep]
    cases rest with
    | nil => exact ⟨_, rfl⟩
    | cons e rest =>
      simp only [stepWalker]
      cases e.err with
      | some x => exact ⟨_, rfl⟩
      | none => cases e.regular <;> exact ⟨_, rfl⟩
  | checkDone rest =>
    refine ⟨.walk, ?_⟩
    rw [hstep]
    simp only [stepWalker]
    cases done <;> exact ⟨_, rfl⟩
  | walkReturned err => exact ⟨.walk, _, by rw [hstep]; rfl⟩
  | sendErr err =>
    refine ⟨.walk, ?_⟩
    rw [hstep]
    simp only [WalkerInv] at hw
    obtain ⟨_, _, hw3⟩ := hw
    subst hw3
    exact ⟨_, rfl⟩
  | finished err =>
    simp only [WalkerInv] at hw
    obtain ⟨_, hw2, hw3⟩ := hw
    by_cases hall : ∀ w ∈ workers, w.pc = .exited
    · -- every worker has ended
      have hwg0 : wg = 0 := by rw [hwg]; exact live_eq_zero.mpr hall
      subst hwg0
      cases closer with
      | notStarted => exact absurd rfl hw2
      | waiting => exact ⟨.closer, _, by rw [hstep]; rfl⟩
      | closing =>
        refine ⟨.closer, ?_⟩
        rw [hstep]
        simp only [stepCloser]
        cases cClosed <;> exact ⟨_, rfl⟩
      | exited =>
        have hcc : cClosed = true := hc.1
        subst hcc
        cases collector with
        | ranging m => exact ⟨.collect, _, by rw [hstep]; rfl⟩
        | recvErrc m =>
          refine ⟨.collect, ?_⟩
          rw [hstep]
          rcases hw3 with h1 | h1
          · subst h1
            simp only [stepCollector]
            cases err <;> exact ⟨_, rfl⟩
          · simp [CollectorPC.ret] at h1
        | closeDone r =>
          refine ⟨.collect, ?_⟩
          rw [hstep]
          simp only [stepCollector]
          cases done <;> exact ⟨_, rfl⟩
        | returned r =>
          exact absurd ⟨⟨r, rfl⟩, ⟨err, rfl⟩, rfl, hall, rfl, hcol.1, rfl, rfl⟩ hnd
    · -- some worker has not ended
      simp only [not_forall] at hall
      obtain ⟨w, hwmem, hwpc⟩ := hall
      obtain ⟨i, hget⟩ := List.getElem?_of_mem hwmem
      have hopen : cClosed = false := open_of_live hc hwmem hwpc
      subst hopen
      obtain ⟨p, pc⟩ := w
      cases pc with
      | read =>
        refine ⟨.read i, ?_⟩
        rw [hstep]
        simp only [stepWorker, hget]
        exact ⟨_, rfl⟩
      | offer r =>
        cases hd : done with
        | true =>
          subst hd
          refine ⟨.abandon i, ?_⟩
          rw [hstep]
          simp only [stepWorker, hget]
          exact ⟨_, rfl⟩
        | false =>
          subst hd
          cases collector with
          | ranging m =>
            refine ⟨.deliver i, ?_⟩
            rw [hstep]
            simp only [stepWorker, hget]
            exact ⟨_, rfl⟩
          | recvErrc m => exact absurd hcol.2.2 (by simp)
          | closeDone r => exact ⟨.collect, _, by rw [hstep]; rfl⟩
          | returned r => exact absurd hcol.1 (by simp)
      | wgDone =>
        refine ⟨.wgDone i, ?_⟩
        rw [hstep]
        simp only [stepWorker, hget]
        by_cases h0 : wg = 0
        · exact ⟨_, by rw [if_pos h0]⟩
        · exact ⟨_, by rw [if_neg h0]⟩
      | exited => exact absurd rfl hwpc

theorem inevitably_of_inv {env : Env} {E : List WalkEntry} {P : State → Prop}
    (hP : ∀ s, Inv env E s → AllDone s → P s) :
    ∀ (n : Nat) (s : State), measure s ≤ n → Inv env E s → Inevitably env P s := by
  intro n
  induction n with
  | zero =>
    intro s hn hinv
    by_cases hd : AllDone s
    · exact .now (hP s hinv hd)
    · obtain ⟨a, s', hs⟩ := progress hinv hd
      have := measure_step hs
      omega
  | succ n ih =>
    intro s hn hinv
    by_cases hd : AllDone s
    · exact .now (hP s hinv hd)
    · refine .later (progress hinv hd) ?_
      intro a s' hs
      have := measure_step hs
      exact ih s' (by omega) (inv_step hinv hs)

theorem inevitably_of_reachable {env : Env} {root : GoString} {P : State → Prop}
    (hP : ∀ s, Inv env (env.walk root) s → AllDone s → P s) {s : State}
    (hs : Reachable env root s) : Inevitably env P s :=
  inevitably_of_inv hP (measure s) s (le_refl _) (inv_of_reachable hs)

theorem reachable_init (env : Env) (root : GoString) :
    Reachable env root (State.init env root) :=
  ⟨[], rfl⟩

/-! ### The sequential reading of the walk -/

theorem mem_discovered {E : List WalkEntry} {p : GoString} (h : p ∈ discovered E) :
    ∃ e ∈ E, e.regular = true ∧ e.err = none ∧ e.path = p := by
  induction E with
  | nil => simp [discovered] at h
  | cons e E ih =>
    simp only [discovered] at h
    cases he : e.err with
    | some x => simp [he] at h
    | none =>
      simp only [he] at h
      cases hr : e.regular with
      | true =>
        simp only [hr, if_true, List.mem_cons] at h
        rcases h with h | h
        · exact ⟨e, by simp, hr, he, h.symm⟩
        · obtain ⟨e', h1, h2⟩ := ih h
          exact ⟨e', by simp [h1], h2⟩
      | false =>
        simp only [hr, Bool.false_eq_true, if_false] at h
        obtain ⟨e', h1, h2⟩ := ih h
        exact ⟨e', by simp [h1], h2⟩

theorem walkErr_mem {E : List WalkEntry} {x : Nat} (h : walkErr E = some x) :
    ∃ e ∈ E, e.err = some x := by
  induction E with
  | nil => simp [walkErr] at h
  | cons e E ih =>
    simp only [walkErr] at h
    cases he : e.err with
    | some y =>
      simp only [he, Option.some.injEq] at h
      subst h
      exact ⟨e, by simp, he⟩
    | none =>
      simp only [he] at h
      obtain ⟨e', h1, h2⟩ := ih h
      exact ⟨e', by simp [h1], h2⟩

/-- Up to the first access error the walk discovers every regular file. -/
theorem discovered_append {pre : List WalkEntry} (rest : List WalkEntry)
    (hpre : ∀ e ∈ pre, e.err = none) :
    discovered (pre ++ rest) =
      (pre.filter (fun e => e.regular)).map (fun e => e.path) ++ discovered rest := by
  induction pre with
  | nil => simp
  | cons e pre ih =>
    have he : e.err = none := hpre e (by simp)
    have ih' := ih (fun e' h' => hpre e' (by simp [h']))
    cases hr : e.regular with
    | true => simp [discovered, he, hr, ih', List.filter_cons]
    | false => simp [discovered, he, hr, ih', List.filter_cons]

theorem walkErr_append {pre : List WalkEntry} (rest : List WalkEntry)
    (hpre : ∀ e ∈ pre, e.err = none) : walkErr (pre ++ rest) = walkErr rest := by
  induction pre with
  | nil => simp
  | cons e pre ih =>
    have he : e.err = none := hpre e (by simp)
    simp [walkErr, he, ih (fun e' h' => hpre e' (by simp [h']))]

theorem discovered_of_ok {E : List WalkEntry} (h : ∀ e ∈ E, e.err = none) (p : GoString) :
    p ∈ discovered E ↔ ∃ e ∈ E, e.regular = true ∧ e.path = p := by
  have := discovered_append [] h
  simp only [List.append_nil, discovered] at this
  rw [this]
  simp [List.mem_map, List.mem_filter, and_assoc]

theorem walkErr_of_ok {E : List WalkEntry} (h : ∀ e ∈ E, e.err = none) : walkErr E = none := by
  have := walkErr_append [] h
  simpa [walkErr] using this

theorem resultSpec_of_returned {env : Env} {root : GoString} {s : State} {r : MD5AllResult}
    (hs : Reachable env root s) (hr : s.collector = .returned r) :
    ResultSpec env (env.walk root) r ∧ s.done = true := by
  have h := (inv_of_reachable hs).collectorOk
  unfold CollectorInv at h
  rw [hr] at h
  exact ⟨h.2, h.1⟩

theorem returned_of_allDone {env : Env} {E : List WalkEntry} {s : State}
    (hinv : Inv env E s) (hd : AllDone s) :
    ∃ r, s.collector = .returned r ∧ ResultSpec env E r := by
  obtain ⟨⟨r, hr⟩, _⟩ := hd
  have h := hinv.collectorOk
  unfold CollectorInv at h
  rw [hr] at h
  exact ⟨r, hr, h.2⟩

theorem resultSpec_of_returns {env : Env} {root : GoString} {r : MD5AllResult}
    (h : MD5All env root r) : ResultSpec env (env.walk root) r := by
  obtain ⟨s, hs, hr⟩ := h
  exact (resultSpec_of_returned hs hr).1

/-- The shape of a result that meets `ResultSpec`. -/
theorem resultSpec_cases {env : Env} {E : List WalkEntry} {r : MD5AllResult}
    (h : ResultSpec env E r) :
    (∃ m, r = (some m, none) ∧ walkErr E = none ∧
        (∀ p ∈ discovered E, (env.readFile p).2 = none) ∧ MapIs env (discovered E) m ∧
        (mapKeys m).Nodup) ∨
      (∃ x, r = (none, some (.os x)) ∧
        ((∃ p ∈ discovered E, (env.readFile p).2 = some x) ∨
          (walkErr E = some x ∧ ∀ p ∈ discovered E, (env.readFile p).2 = none))) := by
  obtain ⟨m, e⟩ := r
  cases m with
  | none =>
    cases e with
    | none => simp [ResultSpec] at h
    | some e =>
      cases e with
      | os x => exact Or.inr ⟨x, rfl, h⟩
      | walkCanceled => simp [ResultSpec] at h
  | some m =>
    cases e with
    | none => exact Or.inl ⟨m, rfl, h⟩
    | some e => simp [ResultSpec] at h

theorem mapIs_keys {env : Env} {ps : List GoString} {m : DigestMap} (h : MapIs env ps m)
    (p : GoString) : p ∈ mapKeys m ↔ p ∈ ps := by
  rw [← mapGet_isSome_iff, h p]
  by_cases hp : p ∈ ps <;> simp [hp]

theorem inevitably_init {env : Env} {root : GoString} {P : State → Prop}
    (hP : ∀ r, ResultSpec env (env.walk root) r → ∀ s, s.collector = .returned r → P s) :
    Inevitably env P (State.init env root) :=
  inevitably_of_reachable
    (fun s hinv hd => by
      obtain ⟨r, hr, hspec⟩ := returned_of_allDone hinv hd
      exact hP r hspec s hr)
    (reachable_init env root)

/-- C1: on a tree all of whose entries can be accessed and all of whose regular
files can be read, every interleaving brings `MD5All(root)` to return `(m, nil)`,
where the keys of `m` are exactly the paths the walk reports for regular files and
every key is mapped to the MD5 digest of the content of its file. -/
theorem md5All_returns_all_digests (env : Env) (root : GoString)
    (hwalk : ∀ e ∈ env.walk root, e.err = none)
    (hread : ∀ e ∈ env.walk root, e.regular = true → (env.readFile e.path).2 = none) :
    (∀ r, MD5All env root r →
      ∃ m, r = (some m, none) ∧
        (∀ p, p ∈ mapKeys m ↔ ∃ e ∈ env.walk root, e.regular = true ∧ e.path = p) ∧
        (∀ p ∈ mapKeys m, mapGet m p = some (env.md5Sum (env.readFile p).1))) ∧
      Inevitably env (fun s => ∃ m, s.collector = .returned (some m, none))
        (State.init env root) := by
  have key : ∀ r, ResultSpec env (env.walk root) r →
      ∃ m, r = (some m, none) ∧ MapIs env (discovered (env.walk root)) m := by
    intro r hr
    rcases resultSpec_cases hr with ⟨m, rfl, _, _, hm, _⟩ | ⟨x, rfl, h | h⟩
    · exact ⟨m, rfl, hm⟩
    · obtain ⟨p, hp, hx⟩ := h
      obtain ⟨e, he, hreg, _, rfl⟩ := mem_discovered hp
      rw [hread e he hreg] at hx
      cases hx
    · rw [walkErr_of_ok hwalk] at h
      cases h.1
  refine ⟨?_, inevitably_init ?_⟩
  · intro r hr
    obtain ⟨m, rfl, hm⟩ := key r (resultSpec_of_returns hr)
    refine ⟨m, rfl, ?_, ?_⟩
    · intro p
      rw [mapIs_keys hm, discovered_of_ok hwalk]
    · intro p hp
      rw [mapIs_keys hm] at hp
      rw [hm p, if_pos hp]
      rfl
  · intro r hr s hs
    obtain ⟨m, rfl, _⟩ := key r hr
    exact ⟨m, hs⟩

/-- C2: when the walk discovers a regular file `f` (every entry before it can be
accessed) whose read fails, every interleaving brings `MD5All(root)` to return
`(nil, e)`, where `e` is the read error of a regular file of the walk whose read
failed; no map is returned.  Nothing is assumed about the entries after `f`, so
the walk itself may fail as well. -/
theorem md5All_read_error (env : Env) (root : GoString) (pre post : List WalkEntry)
    (f : WalkEntry) (x : Nat)
    (hE : env.walk root = pre ++ f :: post) (hpre : ∀ e ∈ pre, e.err = none)
    (hf : f.err = none) (hreg : f.regular = true)
    (hfail : (env.readFile f.path).2 = some x) :
    (∀ r, MD5All env root r →
      ∃ e ∈ env.walk root, ∃ y, e.regular = true ∧ e.err = none ∧
        (env.readFile e.path).2 = some y ∧ r = (none, some (.os y))) ∧
      Inevitably env (fun s => ∃ y, s.collector = .returned (none, some (.os y)))
        (State.init env root) := by
  have hmem : f.path ∈ discovered (env.walk root) := by
    rw [hE, discovered_append _ hpre]
    simp [discovered, hf, hreg]
  have key : ∀ r, ResultSpec env (env.walk root) r →
      ∃ e ∈ env.walk root, ∃ y, e.regular = true ∧ e.err = none ∧
        (env.readFile e.path).2 = some y ∧ r = (none, some (.os y)) := by
    intro r hr
    rcases resultSpec_cases hr with ⟨m, rfl, _, hok, _, _⟩ | ⟨y, rfl, h | h⟩
    · rw [hok _ hmem] at hfail
      cases hfail
    · obtain ⟨p, hp, hy⟩ := h
      obtain ⟨e, he, hreg', herr, rfl⟩ := mem_discovered hp
      exact ⟨e, he, y, hreg', herr, hy, rfl⟩
    · rw [h.2 _ hmem] at hfail
      cases hfail
  refine ⟨fun r hr => key r (resultSpec_of_returns hr), inevitably_init ?_⟩
  intro r hr s hs
  obtain ⟨_, _, y, _, _, _, rfl⟩ := key r hr
  exact ⟨y, hs⟩

/-- C3: when the walk meets an entry `bad` it cannot access (every entry before
it can be accessed) and every regular file discovered before it can be read,
every interleaving brings `MD5All(root)` to return `(nil, e)` with `e` the access
error handed to the callback for `bad`; the digests collected are not returned. -/
theorem md5All_walk_error (env : Env) (root : GoString) (pre post : List WalkEntry)
    (bad : WalkEntry) (x : Nat)
    (hE : env.walk root = pre ++ bad :: post) (hpre : ∀ e ∈ pre, e.err = none)
    (hbad : bad.err = some x)
    (hread : ∀ e ∈ pre, e.regular = true → (env.readFile e.path).2 = none) :
    (∀ r, MD5All env root r → r = (none, some (.os x))) ∧
      Inevitably env (fun s => s.collector = .returned (none, some (.os x)))
        (State.init env root) := by
  have hdisc : discovered (env.walk root) =
      (pre.filter (fun e => e.regular)).map (fun e => e.path) := by
    rw [hE, discovered_append _ hpre]
    simp [discovered, hbad]
  have herr : walkErr (env.walk root) = some x := by
    rw [hE, walkErr_append _ hpre]
    simp [walkErr, hbad]
  have key : ∀ r, ResultSpec env (env.walk root) r → r = (none, some (.os x)) := by
    intro r hr
    rcases resultSpec_cases hr with ⟨m, rfl, hnone, _, _, _⟩ | ⟨y, rfl, h | h⟩
    · rw [herr] at hnone
      cases hnone
    · obtain ⟨p, hp, hy⟩ := h
      rw [hdisc] at hp
      simp only [List.mem_map, List.mem_filter] at hp
      obtain ⟨e, ⟨he, hreg⟩, rfl⟩ := hp
      rw [hread e he hreg] at hy
      cases hy
    · rw [herr] at h
      cases h.1
      rfl
  refine ⟨fun r hr => key r (resultSpec_of_returns hr), inevitably_init ?_⟩
  intro r hr s hs
  rw [← key r hr]
  exact hs

/-- C4: on a tree all of whose entries can be accessed and all of whose regular
files can be read, any two runs of `MD5All(root)`, whatever the order in which the
results arrive, return nil errors and equal maps: the same keys and the same
digest for every key. -/
theorem md5All_deterministic (env : Env) (root : GoString)
    (hwalk : ∀ e ∈ env.walk root, e.err = none)
    (hread : ∀ e ∈ env.walk root, e.regular = true → (env.readFile e.path).2 = none)
    (r₁ r₂ : MD5AllResult) (h₁ : MD5All env root r₁) (h₂ : MD5All env root r₂) :
    ∃ m₁ m₂, r₁ = (some m₁, none) ∧ r₂ = (some m₂, none) ∧
      (∀ p, p ∈ mapKeys m₁ ↔ p ∈ mapKeys m₂) ∧ (∀ p, mapGet m₁ p = mapGet m₂ p) := by
  have key : ∀ r, MD5All env root r →
      ∃ m, r = (some m, none) ∧ MapIs env (discovered (env.walk root)) m := by
    intro r hr
    rcases resultSpec_cases (resultSpec_of_returns hr) with
      ⟨m, rfl, _, _, hm, _⟩ | ⟨x, rfl, h | h⟩
    · exact ⟨m, rfl, hm⟩
    · obtain ⟨p, hp, hx⟩ := h
      obtain ⟨e, he, hreg, _, rfl⟩ := mem_discovered hp
      rw [hread e he hreg] at hx
      cases hx
    · rw [walkErr_of_ok hwalk] at h
      cases h.1
  obtain ⟨m₁, rfl, hm₁⟩ := key r₁ h₁
  obtain ⟨m₂, rfl, hm₂⟩ := key r₂ h₂
  refine ⟨m₁, m₂, rfl, rfl, ?_, ?_⟩
  · intro p
    rw [mapIs_keys hm₁, mapIs_keys hm₂]
  · intro p
    rw [hm₁ p, hm₂ p]

/-- C5: in every reachable state, a result chosen by `MD5All` never carries the
"walk canceled" error: a non-nil error is the read error of a regular file of the
walk or the access error of an entry of the walk.  The channel `done` is closed
exactly when `MD5All` has returned, and "walk canceled" is in `errc` only after
`MD5All` has returned. -/
theorem md5All_never_canceled (env : Env) (root : GoString) (s : State)
    (hs : Reachable env root s) :
    (∀ r, s.ret = some r →
      r.2 ≠ some .walkCanceled ∧
        ∀ e, r.2 = some e → ∃ x, e = .os x ∧
          ((∃ f ∈ env.walk root, f.regular = true ∧ f.err = none ∧
              (env.readFile f.path).2 = some x) ∨
            ∃ b ∈ env.walk root, b.err = some x)) ∧
      (s.done = true ↔ ∃ r, s.collector = .returned r) ∧
      (s.errc = some (some .walkCanceled) → ∃ r, s.collector = .returned r) := by
  have hinv := inv_of_reachable hs
  have hcol := hinv.collectorOk
  have hw := hinv.walkerOk
  have hdone : s.done = true ↔ ∃ r, s.collector = .returned r := by
    unfold CollectorInv at hcol
    cases hc : s.collector with
    | ranging m => rw [hc] at hcol; simp [hcol.1]
    | recvErrc m => rw [hc] at hcol; simp [hcol.1]
    | closeDone r => rw [hc] at hcol; simp [hcol.1]
    | returned r => rw [hc] at hcol; simp [hcol.1]
  refine ⟨?_, hdone, ?_⟩
  · intro r hr
    have hspec : ResultSpec env (env.walk root) r := by
      unfold CollectorInv at hcol
      unfold State.ret at hr
      cases hc : s.collector with
      | ranging m => rw [hc] at hr; simp [CollectorPC.ret] at hr
      | recvErrc m => rw [hc] at hr; simp [CollectorPC.ret] at hr
      | closeDone r' =>
        rw [hc] at hr hcol
        simp only [CollectorPC.ret, Option.some.injEq] at hr
        exact hr ▸ hcol.2
      | returned r' =>
        rw [hc] at hr hcol
        simp only [CollectorPC.ret, Option.some.injEq] at hr
        exact hr ▸ hcol.2
    rcases resultSpec_cases hspec with ⟨m, rfl, _⟩ | ⟨x, rfl, h⟩
    · simp
    · refine ⟨by simp, ?_⟩
      intro e he
      simp only [Option.some.injEq] at he
      subst he
      refine ⟨x, rfl, ?_⟩
      rcases h with ⟨p, hp, hx⟩ | ⟨hx, _⟩
      · obtain ⟨f, hf, hreg, herr, rfl⟩ := mem_discovered hp
        exact Or.inl ⟨f, hf, hreg, herr, hx⟩
      · exact Or.inr (walkErr_mem hx)
  · intro herrc
    rw [← hdone]
    unfold WalkerInv at hw
    cases hwk : s.walker with
    | walking rest => rw [hwk] at hw; rw [hw.2.2.2] at herrc; cases herrc
    | checkDone rest => rw [hwk] at hw; rw [hw.2.2.2] at herrc; cases herrc
    | walkReturned err => rw [hwk] at hw; rw [hw.2.2] at herrc; cases herrc
    | sendErr err => rw [hwk] at hw; rw [hw.2.2] at herrc; cases herrc
    | finished err =>
      rw [hwk] at hw
      rcases hw.2.2 with h | h
      · rw [h] at herrc
        simp only [Option.some.injEq] at herrc
        subst herrc
        exact hw.1
      · rw [h.1] at herrc; cases herrc

/-- C8: in every reachable state the channel `c` is closed only after the walk
has returned and every worker that was started has ended, the wait group being
back at zero; no panic happens and no worker can send on the closed channel; and
as long as `MD5All` has not chosen its result (so `done` is open), once `c` is
closed the map of the collector holds the result of every worker. -/
theorem c_closed_only_after_workers (env : Env) (root : GoString) (s : State)
    (hs : Reachable env root s) :
    (s.cClosed = true →
        (∃ err, s.walker = .sendErr err ∨ s.walker = .finished err) ∧
          (∀ w ∈ s.workers, w.pc = .exited) ∧ s.wg = 0) ∧
      s.panicked = false ∧
      (∀ i, step env (.sendClosed i) s = none) ∧
      (∀ m, s.collector = .ranging m ∨ s.collector = .recvErrc m →
        s.done = false ∧
          (s.cClosed = true → ∀ w ∈ s.workers,
            (env.readFile w.path).2 = none ∧
              mapGet m w.path = some (env.md5Sum (env.readFile w.path).1))) := by
  have hinv := inv_of_reachable hs
  have hclosed : s.cClosed = true → ∀ w ∈ s.workers, w.pc = .exited := by
    intro hcc w hw
    by_contra hne
    have := open_of_live hinv.closerOk hw hne
    rw [this] at hcc
    cases hcc
  refine ⟨?_, hinv.noPanic, ?_, ?_⟩
  · intro hcc
    refine ⟨?_, hclosed hcc, ?_⟩
    · have hc := hinv.closerOk
      have hw := hinv.walkerOk
      unfold CloserInv at hc
      unfold WalkerInv at hw
      have hne : s.closer ≠ .notStarted := by
        intro h
        rw [h] at hc
        rw [hc] at hcc
        cases hcc
      cases hwk : s.walker with
      | walking rest => rw [hwk] at hw; exact absurd hw.2.2.1 hne
      | checkDone rest => rw [hwk] at hw; exact absurd hw.2.2.1 hne
      | walkReturned err => rw [hwk] at hw; exact absurd hw.2.1 hne
      | sendErr err => exact ⟨err, Or.inl rfl⟩
      | finished err => exact ⟨err, Or.inr rfl⟩
    · rw [hinv.wgCount]
      exact live_eq_zero.mpr (hclosed hcc)
  · intro i
    cases hst : step env (.sendClosed i) s with
    | none => rfl
    | some s' =>
      exfalso
      have hp' := (inv_step hinv hst).noPanic
      unfold step at hst
      rw [hinv.noPanic] at hst
      simp only [Bool.false_eq_true, if_false, stepWorker] at hst
      split at hst
      · split at hst
        · cases hst
          simp at hp'
        · cases hst
      · cases hst
  · intro m hm
    have hcol := hinv.collectorOk
    unfold CollectorInv at hcol
    rcases hm with hm | hm
    · rw [hm] at hcol
      refine ⟨hcol.1, fun hcc w hw => ?_⟩
      exact hcol.2.1 w hw (Or.inr (hclosed hcc w hw))
    · rw [hm] at hcol
      refine ⟨hcol.1, fun hcc w hw => ?_⟩
      exact hcol.2.1.1 w hw (Or.inr (hclosed hcc w hw))

/-- C9: in every reachable state, if `MD5All` has returned (whatever the result)
then `done` is closed; once `done` is closed every worker waiting in its `select`
can take the `<-done` case; every interleaving continuing from the state reaches a
state in which all workers have ended, the wait group is at zero and `c` is
closed; and no interleaving continuing from the state has more steps than the
measure of the state. -/
theorem no_worker_stays_blocked (env : Env) (root : GoString) (s : State)
    (hs : Reachable env root s) :
    ((∃ r, s.collector = .returned r) → s.done = true) ∧
      (s.done = true → ∀ i p r, s.workers[i]? = some ⟨p, .offer r⟩ →
        ∃ s', step env (.abandon i) s = some s') ∧
      Inevitably env
        (fun t => (∀ w ∈ t.workers, w.pc = .exited) ∧ t.wg = 0 ∧ t.cClosed = true ∧
          t.done = true)
        s ∧
      (∀ as t, exec env as s = some t → as.length ≤ measure s) := by
  have hinv := inv_of_reachable hs
  refine ⟨?_, ?_, ?_, fun as t ht => by have := exec_length_le as s t ht; omega⟩
  · rintro ⟨r, hr⟩
    exact (resultSpec_of_returned hs hr).2
  · intro hd i p r hget
    unfold step
    rw [hinv.noPanic]
    simp only [Bool.false_eq_true, if_false, stepWorker, hget, hd, if_true]
    exact ⟨_, rfl⟩
  · exact inevitably_of_reachable
      (fun t _ hd => ⟨hd.2.2.2.1, hd.2.2.2.2.1, hd.2.2.2.2.2.2.1, hd.2.2.2.2.2.1⟩) hs

/-! ### Concrete instances of the pipeline theorems -/

/-- On `okEnv` nothing fails and `okRun` brings `MD5All` to return the map of both
files, so the statement about all results applies. -/
theorem md5All_returns_all_digests_witness :
    ((∀ e ∈ okEnv.walk (ascii "r"), e.err = none) ∧
      (∀ e ∈ okEnv.walk (ascii "r"), e.regular = true → (okEnv.readFile e.path).2 = none) ∧
      MD5All okEnv (ascii "r")
        (some [(ascii "r/sub/b.txt", sampleSum (ascii "world")),
               (ascii "r/a.txt", sampleSum (ascii "hello"))], none)) ∧
      ((∀ r, MD5All okEnv (ascii "r") r →
        ∃ m, r = (some m, none) ∧
          (∀ p, p ∈ mapKeys m ↔
            ∃ e ∈ okEnv.walk (ascii "r"), e.regular = true ∧ e.path = p) ∧
          (∀ p ∈ mapKeys m, mapGet m p = some (okEnv.md5Sum (okEnv.readFile p).1))) ∧
        Inevitably okEnv (fun s => ∃ m, s.collector = .returned (some m, none))
          (State.init okEnv (ascii "r"))) :=
  ⟨⟨by decide, by decide, finalState okEnv (ascii "r") okRun, ⟨okRun, by decide⟩, by decide⟩,
    md5All_returns_all_digests okEnv (ascii "r") (by decide) (by decide)⟩

/-- On `badEnv` the read of `r/a.txt` fails with error 2 and `badRun` brings
`MD5All` to return that error and no map. -/
theorem md5All_read_error_witness :
    (badEnv.walk (ascii "r") =
        [⟨ascii "r", false, none⟩] ++
          ⟨ascii "r/a.txt", true, none⟩ :: [⟨ascii "r/b.txt", true, none⟩] ∧
      (badEnv.readFile (ascii "r/a.txt")).2 = some 2 ∧
      MD5All badEnv (ascii "r") (none, some (.os 2))) ∧
      ((∀ r, MD5All badEnv (ascii "r") r →
        ∃ e ∈ badEnv.walk (ascii "r"), ∃ y, e.regular = true ∧ e.err = none ∧
          (badEnv.readFile e.path).2 = some y ∧ r = (none, some (.os y))) ∧
        Inevitably badEnv (fun s => ∃ y, s.collector = .returned (none, some (.os y)))
          (State.init badEnv (ascii "r"))) :=
  ⟨⟨by decide, by decide, finalState badEnv (ascii "r") badRun, ⟨badRun, by decide⟩,
      by decide⟩,
    md5All_read_error badEnv (ascii "r") [⟨ascii "r", false, none⟩]
      [⟨ascii "r/b.txt", true, none⟩] ⟨ascii "r/a.txt", true, none⟩ 2
      (by decide) (by decide) (by decide) (by decide) (by decide)⟩

/-- On `deniedEnv` the directory `r/sub` cannot be listed and `deniedRun` brings
`MD5All` to return the access error 13 and no map. -/
theorem md5All_walk_error_witness :
    (deniedEnv.walk (ascii "r") =
        [⟨ascii "r", false, none⟩, ⟨ascii "r/a.txt", true, none⟩] ++
          ⟨ascii "r/sub", false, some 13⟩ :: [] ∧
      (deniedEnv.readFile (ascii "r/a.txt")).2 = none ∧
      MD5All deniedEnv (ascii "r") (none, some (.os 13))) ∧
      ((∀ r, MD5All deniedEnv (ascii "r") r → r = (none, some (.os 13))) ∧
        Inevitably deniedEnv (fun s => s.collector = .returned (none, some (.os 13)))
          (State.init deniedEnv (ascii "r"))) :=
  ⟨⟨by decide, by decide, finalState deniedEnv (ascii "r") deniedRun,
      ⟨deniedRun, by decide⟩, by decide⟩,
    md5All_walk_error deniedEnv (ascii "r")
      [⟨ascii "r", false, none⟩, ⟨ascii "r/a.txt", true, none⟩] []
      ⟨ascii "r/sub", false, some 13⟩ 13
      (by decide) (by decide) (by decide) (by decide)⟩

/-- On `okEnv` the interleavings `okRun` and `okRun'` deliver the digests in
opposite orders; the two maps returned hold the same keys and digests. -/
theorem md5All_deterministic_witness :
    (MD5All okEnv (ascii "r")
        (some [(ascii "r/sub/b.txt", sampleSum (ascii "world")),
               (ascii "r/a.txt", sampleSum (ascii "hello"))], none) ∧
      MD5All okEnv (ascii "r")
        (some [(ascii "r/a.txt", sampleSum (ascii "hello")),
               (ascii "r/sub/b.txt", sampleSum (ascii "world"))], none)) ∧
      ∃ m₁ m₂,
        ((some [(ascii "r/sub/b.txt", sampleSum (ascii "world")),
                (ascii "r/a.txt", sampleSum (ascii "hello"))], none) : MD5AllResult) =
            (some m₁, none) ∧
          ((some [(ascii "r/a.txt", sampleSum (ascii "hello")),
                  (ascii "r/sub/b.txt", sampleSum (ascii "world"))], none) : MD5AllResult) =
            (some m₂, none) ∧
          (∀ p, p ∈ mapKeys m₁ ↔ p ∈ mapKeys m₂) ∧ (∀ p, mapGet m₁ p = mapGet m₂ p) :=
  ⟨⟨⟨finalState okEnv (ascii "r") okRun, ⟨okRun, by decide⟩, by decide⟩,
      ⟨finalState okEnv (ascii "r") okRun', ⟨okRun', by decide⟩, by decide⟩⟩,
    md5All_deterministic okEnv (ascii "r") (by decide) (by decide) _ _
      ⟨finalState okEnv (ascii "r") okRun, ⟨okRun, by decide⟩, by decide⟩
      ⟨finalState okEnv (ascii "r") okRun', ⟨okRun', by decide⟩, by decide⟩⟩

/-- In the state `badRun` leads to on `badEnv`, the result chosen is the read
error 2, `done` is closed and `MD5All` has returned. -/
theorem md5All_never_canceled_witness :
    Reachable badEnv (ascii "r") (finalState badEnv (ascii "r") badRun) ∧
      (finalState badEnv (ascii "r") badRun).collector = .returned (none, some (.os 2)) ∧
      ((∀ r, (finalState badEnv (ascii "r") badRun).ret = some r →
        r.2 ≠ some .walkCanceled ∧
          ∀ e, r.2 = some e → ∃ x, e = .os x ∧
            ((∃ f ∈ badEnv.walk (ascii "r"), f.regular = true ∧ f.err = none ∧
                (badEnv.readFile f.path).2 = some x) ∨
              ∃ b ∈ badEnv.walk (ascii "r"), b.err = some x)) ∧
        ((finalState badEnv (ascii "r") badRun).done = true ↔
          ∃ r, (finalState badEnv (ascii "r") badRun).collector = .returned r) ∧
        ((finalState badEnv (ascii "r") badRun).errc = some (some .walkCanceled) →
          ∃ r, (finalState badEnv (ascii "r") badRun).collector = .returned r)) :=
  ⟨⟨badRun, by decide⟩, by decide,
    md5All_never_canceled badEnv (ascii "r") _ ⟨badRun, by decide⟩⟩

/-- In the state `okRun` leads to on `okEnv` the channel `c` is closed, the walker
is past the walk, both workers have ended and the wait group is at zero. -/
theorem c_closed_only_after_workers_witness :
    Reachable okEnv (ascii "r") (finalState okEnv (ascii "r") okRun) ∧
      (finalState okEnv (ascii "r") okRun).cClosed = true ∧
      (∃ err, (finalState okEnv (ascii "r") okRun).walker = .sendErr err ∨
          (finalState okEnv (ascii "r") okRun).walker = .finished err) ∧
      (∀ w ∈ (finalState okEnv (ascii "r") okRun).workers, w.pc = .exited) ∧
      (finalState okEnv (ascii "r") okRun).wg = 0 :=
  ⟨⟨okRun, by decide⟩, by decide,
    (c_closed_only_after_workers okEnv (ascii "r") _ ⟨okRun, by decide⟩).1 (by decide)⟩

/-- In the state `badRun` leads to on `badEnv`, `MD5All` has returned early on the
read error while the worker of `r/b.txt` waits in its `select`: that worker can
take the `<-done` case and every continuation ends with all workers ended. -/
theorem no_worker_stays_blocked_witness :
    Reachable badEnv (ascii "r") (finalState badEnv (ascii "r") badRun) ∧
      (finalState badEnv (ascii "r") badRun).workers[1]? =
        some ⟨ascii "r/b.txt", .offer (mkResult badEnv (ascii "r/b.txt"))⟩ ∧
      (finalState badEnv (ascii "r") badRun).done = true ∧
      (∃ s', step badEnv (.abandon 1) (finalState badEnv (ascii "r") badRun) = some s') ∧
      Inevitably badEnv
        (fun t => (∀ w ∈ t.workers, w.pc = .exited) ∧ t.wg = 0 ∧ t.cClosed = true ∧
          t.done = true)
        (finalState badEnv (ascii "r") badRun) :=
  ⟨⟨badRun, by decide⟩, by decide, by decide,
    (no_worker_stays_blocked badEnv (ascii "r") _ ⟨badRun, by decide⟩).2.1 (by decide) 1
      (ascii "r/b.txt") (mkResult badEnv (ascii "r/b.txt")) (by decide),
    (no_worker_stays_blocked badEnv (ascii "r") _ ⟨badRun, by decide⟩).2.2.1⟩

/-! ### The order of `sort.Strings` -/

theorem strLess_irrefl (a : GoString) : strLess a a = false := by
  induction a with
  | nil => rfl
  | cons x a ih => simp [strLess, ih]

theorem strLess_trans : ∀ {a b c : GoString},
    strLess a b = true → strLess b c = true → strLess a c = true
  | [], [], _, h, _ => by simp [strLess] at h
  | _ :: _, [], _, h, _ => by simp [strLess] at h
  | _, _ :: _, [], _, h => by simp [strLess] at h
  | [], _ :: _, _ :: _, _, _ => by simp [strLess]
  | x :: a, y :: b, z :: c, h₁, h₂ => by
    simp only [strLess, Bool.or_eq_true, Bool.and_eq_true, decide_eq_true_eq] at h₁ h₂ ⊢
    rcases h₁ with h₁ | ⟨h₁, h₁'⟩
    · rcases h₂ with h₂ | ⟨h₂, _⟩
      · exact Or.inl (lt_trans h₁ h₂)
      · exact Or.inl (h₂ ▸ h₁)
    · rcases h₂ with h₂ | ⟨h₂, h₂'⟩
      · exact Or.inl (h₁ ▸ h₂)
      · exact Or.inr ⟨h₁.trans h₂, strLess_trans h₁' h₂'⟩

theorem strLess_total : ∀ (a b : GoString),
    strLess a b = true ∨ a = b ∨ strLess b a = true
  | [], [] => Or.inr (Or.inl rfl)
  | [], _ :: _ => Or.inl rfl
  | _ :: _, [] => Or.inr (Or.inr rfl)
  | x :: a, y :: b => by
    simp only [strLess, Bool.or_eq_true, Bool.and_eq_true, decide_eq_true_eq, List.cons.injEq]
    rcases lt_trichotomy x y with h | h | h
    · exact Or.inl (Or.inl h)
    · rcases strLess_total a b with h' | h' | h'
      · exact Or.inl (Or.inr ⟨h, h'⟩)
      · exact Or.inr (Or.inl ⟨h, h'⟩)
      · exact Or.inr (Or.inr (Or.inr ⟨h.symm, h'⟩))
    · exact Or.inr (Or.inr (Or.inl h))

theorem strLess_asymm {a b : GoString} (h : strLess a b = true) : strLess b a = false := by
  cases hba : strLess b a with
  | false => rfl
  | true =>
    have := strLess_trans h hba
    rw [strLess_irrefl] at this
    cases this

instance strLe.isTotal : IsTotal GoString strLe :=
  ⟨fun a b => by
    unfold strLe
    cases h : strLess b a with
    | false => exact Or.inl rfl
    | true => exact Or.inr (strLess_asymm h)⟩

instance strLe.isTrans : IsTrans GoString strLe :=
  ⟨fun a b c hab hbc => by
    unfold strLe at *
    cases hca : strLess c a with
    | false => rfl
    | true =>
      rcases strLess_total a b with h | h | h
      · rw [strLess_trans hca h] at hbc
        cases hbc
      · subst h
        rw [hca] at hbc
        cases hbc
      · rw [h] at hab
        cases hab⟩

theorem strLess_of_le_of_ne {a b : GoString} (h : strLe a b) (hne : a ≠ b) :
    strLess a b = true := by
  unfold strLe at h
  rcases strLess_total a b with h' | h' | h'
  · exact h'
  · exact absurd h' hne
  · rw [h] at h'
    cases h'

theorem sortStrings_perm (l : List GoString) : (sortStrings l).Perm l :=
  List.perm_insertionSort strLe l

theorem mem_sortStrings {l : List GoString} {p : GoString} : p ∈ sortStrings l ↔ p ∈ l :=
  (sortStrings_perm l).mem_iff

theorem sortStrings_sorted (l : List GoString) (h : l.Nodup) :
    (sortStrings l).Sorted (fun a b => strLess a b = true) := by
  have h1 : (sortStrings l).Sorted strLe := List.sorted_insertionSort strLe l
  have h2 : (sortStrings l).Nodup := (sortStrings_perm l).nodup_iff.mpr h
  exact (List.Pairwise.and h1 h2).imp (fun ⟨hle, hne⟩ => strLess_of_le_of_ne hle hne)

/-! ### The manifest -/

theorem hexDigit_mem : ∀ n, n < 16 → hexDigit n ∈ ascii "0123456789abcdef" := by
  decide

theorem sprintfHex_spec (d : Digest) :
    (sprintfHex d).length = 32 ∧ ∀ c ∈ sprintfHex d, c ∈ ascii "0123456789abcdef" := by
  obtain ⟨l, hl⟩ := d
  unfold sprintfHex
  simp only
  constructor
  · have : ∀ l : List Byte,
        (l.flatMap (fun b => [hexDigit (b.val / 16), hexDigit (b.val % 16)])).length =
          2 * l.length := by
      intro l
      induction l with
      | nil => rfl
      | cons a l ih => simp [List.flatMap_cons, ih]; omega
    rw [this, hl, md5Size]
  · intro c hc
    simp only [List.mem_flatMap, List.mem_cons, List.mem_singleton, List.not_mem_nil,
      or_false] at hc
    obtain ⟨b, _, hc | hc⟩ := hc
    · rw [hc]
      exact hexDigit_mem _ (by have := b.isLt; omega)
    · rw [hc]
      exact hexDigit_mem _ (Nat.mod_lt _ (by decide))

theorem mem_manifestPaths (m : DigestMap) (p : GoString) :
    p ∈ manifestPaths m ↔ p ∈ mapKeys m ∧ p.head? ≠ some dot := by
  simp [manifestPaths, List.mem_filter, mem_sortStrings]

theorem manifestPaths_sorted (m : DigestMap) (h : (mapKeys m).Nodup) :
    (manifestPaths m).Sorted (fun a b => strLess a b = true) :=
  (sortStrings_sorted _ h).filter _

theorem formatLine_of_mem {m : DigestMap} {p : GoString} (h : p ∈ mapKeys m) :
    ∃ d, mapGet m p = some d ∧
      formatLine m p = sprintfHex d ++ ascii "  " ++ p ++ ascii "\n" := by
  cases hg : mapGet m p with
  | none =>
    have := (mapGet_isSome_iff m p).mpr h
    rw [hg] at this
    cases this
  | some d => exact ⟨d, rfl, by simp [formatLine, mapIndex, hg]⟩

/-- The loop of lines 180-187 in closed form, when no path is empty. -/
theorem manifestLoop_eq (m : DigestMap) :
    ∀ (ps : List GoString) (w : World) (buffer : GoString), (∀ p ∈ ps, p ≠ []) →
      manifestLoop m ps (w, buffer) =
        some
          ({ w with
              trace := w.trace ++
                (ps.filter (fun p => decide (p.head? ≠ some dot))).map
                  (fun p => Event.printf (formatLine m p)) },
            buffer ++ (ps.filter (fun p => decide (p.head? ≠ some dot))).flatMap (formatLine m))
  | [], w, buffer, _ => by simp [manifestLoop]
  | [] :: ps, w, buffer, h => absurd rfl (h [] (by simp))
  | (c :: p) :: ps, w, buffer, h => by
    have ih := manifestLoop_eq m ps
    have h' : ∀ q ∈ ps, q ≠ [] := fun q hq => h q (by simp [hq])
    by_cases hc : c = dot
    · subst hc
      simp only [manifestLoop, ne_eq, not_true_eq_false, if_false]
      rw [ih w buffer h']
      simp [List.filter_cons]
    · simp only [manifestLoop, ne_eq, hc, not_false_eq_true, if_true]
      rw [ih _ _ h']
      simp [List.filter_cons, hc, World.log, List.flatMap_cons, List.append_assoc]

/-- The function `calcMd5` in closed form on the path where it writes the
manifest. -/
theorem calcMd5_eq {osArgs : List GoString} {root : GoString}
    {md5All : GoString → MD5AllResult} {w : World} {m : DigestMap}
    (hargs : osArgs[1]? = some root)
    (hnew : fileExists w (root ++ [Separator] ++ ascii ".md5list") = some false)
    (hcall : md5All root = (some m, none)) (hne : ∀ p ∈ mapKeys m, p ≠ []) :
    calcMd5 osArgs md5All w =
      some (reportErr (WriteToFile
        { w with
          trace := w.trace ++ Event.md5All root ::
            (manifestPaths m).map (fun p => Event.printf (formatLine m p)) }
        (root ++ [Separator] ++ ascii ".md5list") (manifestText m))) := by
  have hlen : ¬ osArgs.length ≤ 1 := by
    intro hle
    rw [List.getElem?_eq_none hle] at hargs
    cases hargs
  have hps : ∀ p ∈ sortStrings (mapKeys m), p ≠ [] :=
    fun p hp => hne p (mem_sortStrings.mp hp)
  simp only [calcMd5, hargs, hnew, hlen, if_false, hcall, Option.getD_some]
  rw [manifestLoop_eq m _ _ _ hps]
  simp [manifestText, manifestPaths, World.log]

/-! ### The empty path -/

theorem manifestLoop_empty (m : DigestMap) :
    ∀ (ps : List GoString) (acc : World × GoString), [] ∈ ps → manifestLoop m ps acc = none
  | [], _, h => by simp at h
  | [] :: _, (_, _), _ => rfl
  | (c :: p) :: ps, (w, buffer), h => by
    have h' : [] ∈ ps := by simpa using h
    by_cases hc : c = dot
    · subst hc
      simp only [manifestLoop, ne_eq, not_true_eq_false, if_false]
      exact manifestLoop_empty m ps _ h'
    · simp only [manifestLoop, ne_eq, hc, not_false_eq_true, if_true]
      exact manifestLoop_empty m ps _ h'

/-- On a map with the empty string as a key, the index expression `path[0]` of
line 182 panics.  (The function `MD5All` returns no such map: `filepath.Walk`
reports no regular file under the empty path.) -/
theorem calcMd5_empty_key {osArgs : List GoString} {root : GoString}
    {md5All : GoString → MD5AllResult} {w : World} {m : DigestMap}
    (hargs : osArgs[1]? = some root)
    (hnew : fileExists w (root ++ [Separator] ++ ascii ".md5list") = some false)
    (hcall : md5All root = (some m, none)) (hempty : [] ∈ mapKeys m) :
    calcMd5 osArgs md5All w = none := by
  have hlen : ¬ osArgs.length ≤ 1 := by
    intro hle
    rw [List.getElem?_eq_none hle] at hargs
    cases hargs
  simp only [calcMd5, hargs, hnew, hlen, if_false, hcall, Option.getD_some]
  rw [manifestLoop_empty m _ _ (mem_sortStrings.mpr hempty)]

theorem returns_keys {env : Env} {root : GoString} {m : DigestMap}
    (h : MD5All env root (some m, none)) :
    (mapKeys m).Nodup ∧
      ∀ p ∈ mapKeys m, ∃ e ∈ env.walk root, e.regular = true ∧ e.path = p := by
  rcases resultSpec_cases (resultSpec_of_returns h) with ⟨m', hm', _, _, hmap, hnd⟩ | ⟨x, hx, _⟩
  · cases hm'
    refine ⟨hnd, fun p hp => ?_⟩
    rw [mapIs_keys hmap] at hp
    obtain ⟨e, he, hreg, _, hpath⟩ := mem_discovered hp
    exact ⟨e, he, hreg, hpath⟩
  · cases hx

theorem writeToFile_ok (w : World) (file data : GoString) (hc : w.createErr file = none)
    (hw : w.writeErr file = none) :
    (reportErr (WriteToFile w file data)).fs file = .file data := by
  unfold WriteToFile
  rw [hc, hw]
  cases w.syncErr file <;> simp [reportErr, World.log]

/-- C6: for a map `m` that `MD5All(root)` returns without error (the walk
reporting no regular file under an empty path), when `<root>/.md5list` does not
exist as a file `calcMd5` builds the text made of the banner line followed by one
line for each included path of `m` (a key whose first byte is not a dot), the
paths in strictly ascending byte-wise order, each line being the 32 lower-case
hexadecimal digits of the digest of the path, two spaces, the path and a newline;
it hands that text to `WriteToFile` for `<root>/.md5list`, which then holds it
when creating and writing the file succeed. -/
theorem calcMd5_writes_manifest (env : Env) (osArgs : List GoString) (root : GoString)
    (md5All : GoString → MD5AllResult) (w : World) (m : DigestMap)
    (hargs : osArgs[1]? = some root)
    (hnew : fileExists w (root ++ [Separator] ++ ascii ".md5list") = some false)
    (hret : MD5All env root (some m, none)) (hcall : md5All root = (some m, none))
    (hpaths : ∀ e ∈ env.walk root, e.regular = true → e.path ≠ []) :
    manifestText m =
        ascii "md5 hash of directory contents v1.0\n" ++
          (manifestPaths m).flatMap (formatLine m) ∧
      (∀ p, p ∈ manifestPaths m ↔ p ∈ mapKeys m ∧ p.head? ≠ some dot) ∧
      (manifestPaths m).Sorted (fun a b => strLess a b = true) ∧
      (∀ p ∈ manifestPaths m, ∃ d, mapGet m p = some d ∧
        formatLine m p = sprintfHex d ++ ascii "  " ++ p ++ ascii "\n" ∧
        (sprintfHex d).length = 32 ∧ ∀ c ∈ sprintfHex d, c ∈ ascii "0123456789abcdef") ∧
      calcMd5 osArgs md5All w =
        some (reportErr (WriteToFile
          { w with
            trace := w.trace ++ Event.md5All root ::
              (manifestPaths m).map (fun p => Event.printf (formatLine m p)) }
          (root ++ [Separator] ++ ascii ".md5list") (manifestText m))) ∧
      (w.createErr (root ++ [Separator] ++ ascii ".md5list") = none →
        w.writeErr (root ++ [Separator] ++ ascii ".md5list") = none →
        ∃ w', calcMd5 osArgs md5All w = some w' ∧
          w'.fs (root ++ [Separator] ++ ascii ".md5list") = .file (manifestText m)) := by
  obtain ⟨hnd, hkeys⟩ := returns_keys hret
  have hne : ∀ p ∈ mapKeys m, p ≠ [] := by
    intro p hp
    obtain ⟨e, he, hreg, rfl⟩ := hkeys p hp
    exact hpaths e he hreg
  have heq := calcMd5_eq (w := w) hargs hnew hcall hne
  refine ⟨rfl, mem_manifestPaths m, manifestPaths_sorted m hnd, ?_, heq, ?_⟩
  · intro p hp
    obtain ⟨d, hd, hline⟩ := formatLine_of_mem ((mem_manifestPaths m p).mp hp).1
    exact ⟨d, hd, hline, sprintfHex_spec d⟩
  · intro hc hw
    exact ⟨_, heq, writeToFile_ok _ _ _ hc hw⟩

/-- When `os.Stat` succeeds and `<root>/.md5list` is a file, `calcMd5` prints that
the directory is already processed and returns: it does not call `MD5All` and it
leaves the file system, the content of the manifest included, as it was. -/
theorem calcMd5_existing_manifest_stat_ok (osArgs : List GoString) (root : GoString)
    (md5All : GoString → MD5AllResult) (w : World) (data : GoString)
    (hargs : osArgs[1]? = some root)
    (hstat : w.statErr (root ++ [Separator] ++ ascii ".md5list") = none)
    (hfile : w.fs (root ++ [Separator] ++ ascii ".md5list") = .file data) :
    fileExists w (root ++ [Separator] ++ ascii ".md5list") = some true ∧
      ∃ w', calcMd5 osArgs md5All w = some w' ∧
        w'.trace = w.trace ++
          [.println (ascii ".md5list files exists. This directory already processed. Exiting.")] ∧
        (∀ r, Event.md5All r ∈ w'.trace → Event.md5All r ∈ w.trace) ∧
        w'.fs = w.fs ∧
        w'.fs (root ++ [Separator] ++ ascii ".md5list") = .file data := by
  have hex : fileExists w (root ++ [Separator] ++ ascii ".md5list") = some true := by
    unfold fileExists osStat
    rw [hstat, hfile]
    rfl
  refine ⟨hex,
    w.log (.println (ascii ".md5list files exists. This directory already processed. Exiting.")),
    by simp only [calcMd5, hargs, hex], rfl, ?_, rfl, hfile⟩
  intro r hr
  simpa [World.log] using hr

/-- When `os.Stat` fails for `<root>/.md5list` with an error other than "does not
exist", `fileExists` calls `info.IsDir()` on a nil `info` (line 118) and `calcMd5`
panics, whatever the file system holds under that name. -/
theorem calcMd5_stat_failure (osArgs : List GoString) (root : GoString)
    (md5All : GoString → MD5AllResult) (w : World) (e : Nat)
    (hargs : osArgs[1]? = some root)
    (hstat : w.statErr (root ++ [Separator] ++ ascii ".md5list") = some e) :
    fileExists w (root ++ [Separator] ++ ascii ".md5list") = none ∧
      calcMd5 osArgs md5All w = none := by
  have hex : fileExists w (root ++ [Separator] ++ ascii ".md5list") = none := by
    unfold fileExists osStat
    rw [hstat]
  exact ⟨hex, by simp only [calcMd5, hargs, hex]⟩

/-- C7, where the code misses the claim: in `lockedWorld` the manifest
`r/.md5list` exists as a file with the content "old", but the directory `r` cannot
be searched, so `os.Stat` fails with an error that is not "does not exist".  The
function `fileExists` tests only `os.IsNotExist(err)` before it calls
`info.IsDir()` on the nil `info`, and `calcMd5` panics instead of reporting that
the directory is already processed and returning. -/
theorem calcMd5_panics_on_unsearchable_manifest :
    lockedWorld.fs (ascii "r" ++ [Separator] ++ ascii ".md5list") = .file (ascii "old") ∧
      osStat lockedWorld (ascii "r" ++ [Separator] ++ ascii ".md5list") = .failed ∧
      fileExists lockedWorld (ascii "r" ++ [Separator] ++ ascii ".md5list") = none ∧
      calcMd5 sampleArgs (fun _ => (some okMap, none)) lockedWorld = none :=
  ⟨by decide, by decide, by decide,
    (calcMd5_stat_failure sampleArgs (ascii "r") (fun _ => (some okMap, none)) lockedWorld 13
      (by decide) (by decide)).2⟩

/-- The directory `calcMd5` processes is `os.Args[1]` (lines 151 and 170), not the
`DIR` of the usage text: for the invocation `md5folder -m r` on a world where
`r/.md5list` exists, it looks for `-m/.md5list`, calls `MD5All("-m")` and prints
the error of that call. -/
theorem calcMd5_flag_first :
    processedWorld.fs (ascii "r" ++ [Separator] ++ ascii ".md5list") = .file (ascii "old") ∧
      (calcMd5 flagFirstArgs (fun _ => (none, some (.os 2))) processedWorld).map
          (fun w => w.trace) =
        some [.md5All (ascii "-m"), .printlnErr (.os 2)] :=
  ⟨by decide, by decide⟩

theorem flatMap_split {L : List GoString} {f : GoString → GoString} {p : GoString}
    (h : p ∈ L) (head : GoString) :
    ∃ pre post, head ++ L.flatMap f = pre ++ f p ++ post := by
  obtain ⟨l₁, l₂, rfl⟩ := List.append_of_mem h
  exact ⟨head ++ l₁.flatMap f, l₂.flatMap f, by
    simp [List.flatMap_append, List.flatMap_cons, List.append_assoc]⟩

/-- C10: the filter of `calcMd5` looks at the first byte of the whole path only.
For every map without an empty key, when `<root>/.md5list` does not exist as a
file, the text `calcMd5` hands to `WriteToFile` for `<root>/.md5list` (and which the
file holds when creating and writing it succeed) is the banner followed by the
lines of a list `L` of paths, where a path is in `L` exactly when it is a key of
the map whose first byte is not a dot; the line of a key is the 32 hexadecimal
digits of its digest, two spaces, the key and a newline, and the line of every
key whose first byte is not a dot is a part of the text.  So a hidden file in a
directory, as `sub/.secret`, gets its line, and paths that start with a dot, as
`../dir/a.txt` and `.git/config`, are not in `L`, whatever the name of the file. -/
theorem calcMd5_hidden_filter (osArgs : List GoString) (root : GoString)
    (md5All : GoString → MD5AllResult) (w : World) (m : DigestMap)
    (hargs : osArgs[1]? = some root)
    (hnew : fileExists w (root ++ [Separator] ++ ascii ".md5list") = some false)
    (hcall : md5All root = (some m, none)) (hne : ∀ p ∈ mapKeys m, p ≠ []) :
    ∃ L : List GoString,
      (∀ p, p ∈ L ↔ p ∈ mapKeys m ∧ p.head? ≠ some dot) ∧
      (∀ p ∈ mapKeys m, ∃ d, mapGet m p = some d ∧
        formatLine m p = sprintfHex d ++ ascii "  " ++ p ++ ascii "\n" ∧
        (sprintfHex d).length = 32 ∧ ∀ c ∈ sprintfHex d, c ∈ ascii "0123456789abcdef") ∧
      calcMd5 osArgs md5All w =
        some (reportErr (WriteToFile
          { w with
            trace := w.trace ++ Event.md5All root ::
              L.map (fun p => Event.printf (formatLine m p)) }
          (root ++ [Separator] ++ ascii ".md5list")
          (ascii "md5 hash of directory contents v1.0\n" ++ L.flatMap (formatLine m)))) ∧
      (∀ p ∈ mapKeys m, p.head? ≠ some dot →
        ∃ pre post,
          ascii "md5 hash of directory contents v1.0\n" ++ L.flatMap (formatLine m) =
            pre ++ formatLine m p ++ post) ∧
      (w.createErr (root ++ [Separator] ++ ascii ".md5list") = none →
        w.writeErr (root ++ [Separator] ++ ascii ".md5list") = none →
        ∃ w', calcMd5 osArgs md5All w = some w' ∧
          w'.fs (root ++ [Separator] ++ ascii ".md5list") =
            .file (ascii "md5 hash of directory contents v1.0\n" ++
              L.flatMap (formatLine m))) ∧
      (ascii "sub/.secret" ∈ mapKeys m →
        ascii "sub/.secret" ∈ L ∧
          ∃ pre post,
            ascii "md5 hash of directory contents v1.0\n" ++ L.flatMap (formatLine m) =
              pre ++ formatLine m (ascii "sub/.secret") ++ post) ∧
      ascii "../dir/a.txt" ∉ L ∧ ascii ".git/config" ∉ L := by
  have heq := calcMd5_eq (w := w) hargs hnew hcall hne
  have hmem := mem_manifestPaths m
  have hpart : ∀ p ∈ mapKeys m, p.head? ≠ some dot →
      ∃ pre post,
        ascii "md5 hash of directory contents v1.0\n" ++
            (manifestPaths m).flatMap (formatLine m) =
          pre ++ formatLine m p ++ post :=
    fun p hp hd => flatMap_split ((hmem p).mpr ⟨hp, hd⟩) _
  refine ⟨manifestPaths m, hmem, ?_, heq, hpart, ?_, ?_, ?_, ?_⟩
  · intro p hp
    obtain ⟨d, hd, hline⟩ := formatLine_of_mem hp
    exact ⟨d, hd, hline, sprintfHex_spec d⟩
  · intro hc hw
    exact ⟨_, heq, writeToFile_ok _ _ _ hc hw⟩
  · intro h
    exact ⟨(hmem _).mpr ⟨h, by decide⟩, hpart _ h (by decide)⟩
  · intro h
    exact ((hmem _).mp h).2 (by decide)
  · intro h
    exact ((hmem _).mp h).2 (by decide)

/-! ### Concrete instances of the manifest theorems -/

/-- For the invocation `md5folder r -m` on a fresh world with the map of `okRun`:
the manifest text, and the file `r/.md5list` holding it afterwards. -/
theorem calcMd5_writes_manifest_witness :
    (sampleArgs[1]? = some (ascii "r") ∧
      fileExists freshWorld (ascii "r" ++ [Separator] ++ ascii ".md5list") = some false ∧
      MD5All okEnv (ascii "r") (some okMap, none) ∧
      (∀ e ∈ okEnv.walk (ascii "r"), e.regular = true → e.path ≠ [])) ∧
      manifestText okMap =
        ascii ("md5 hash of directory contents v1.0\n" ++
          "68656c6c6f0000000000000000000000  r/a.txt\n" ++
          "776f726c640000000000000000000000  r/sub/b.txt\n") ∧
      ∃ w', calcMd5 sampleArgs (fun _ => (some okMap, none)) freshWorld = some w' ∧
        w'.fs (ascii "r" ++ [Separator] ++ ascii ".md5list") = .file (manifestText okMap) :=
  ⟨⟨by decide, by decide,
      ⟨finalState okEnv (ascii "r") okRun, ⟨okRun, by decide⟩, by decide⟩, by decide⟩,
    by decide,
    (calcMd5_writes_manifest okEnv sampleArgs (ascii "r") (fun _ => (some okMap, none))
      freshWorld okMap (by decide) (by decide)
      ⟨finalState okEnv (ascii "r") okRun, ⟨okRun, by decide⟩, by decide⟩ rfl
      (by decide)).2.2.2.2.2 rfl rfl⟩

/-- For the invocation `md5folder r -m` on a world where `r/.md5list` holds "old"
and `os.Stat` succeeds: only the message is printed and the file still holds
"old". -/
theorem calcMd5_existing_manifest_stat_ok_witness :
    (sampleArgs[1]? = some (ascii "r") ∧
      processedWorld.statErr (ascii "r" ++ [Separator] ++ ascii ".md5list") = none ∧
      processedWorld.fs (ascii "r" ++ [Separator] ++ ascii ".md5list") = .file (ascii "old")) ∧
      fileExists processedWorld (ascii "r" ++ [Separator] ++ ascii ".md5list") = some true ∧
      ∃ w', calcMd5 sampleArgs (fun _ => (some okMap, none)) processedWorld = some w' ∧
        w'.trace = processedWorld.trace ++
          [.println (ascii ".md5list files exists. This directory already processed. Exiting.")] ∧
        (∀ r, Event.md5All r ∈ w'.trace → Event.md5All r ∈ processedWorld.trace) ∧
        w'.fs = processedWorld.fs ∧
        w'.fs (ascii "r" ++ [Separator] ++ ascii ".md5list") = .file (ascii "old") :=
  ⟨⟨by decide, by decide, by decide⟩,
    calcMd5_existing_manifest_stat_ok sampleArgs (ascii "r") (fun _ => (some okMap, none))
      processedWorld (ascii "old") (by decide) (by decide) (by decide)⟩

/-- For the invocation `md5folder r -m` on a fresh world with `dottedMap`, the
file `r/.md5list` ends up holding the banner and the lines of `b.txt` and
`sub/.secret`; `../dir/a.txt` and `.git/config` have no line. -/
theorem calcMd5_hidden_filter_witness :
    (sampleArgs[1]? = some (ascii "r") ∧
      fileExists freshWorld (ascii "r" ++ [Separator] ++ ascii ".md5list") = some false ∧
      (∀ p ∈ mapKeys dottedMap, p ≠ [])) ∧
      (calcMd5 sampleArgs (fun _ => (some dottedMap, none)) freshWorld).map
          (fun w' => w'.fs (ascii "r" ++ [Separator] ++ ascii ".md5list")) =
        some (.file (ascii ("md5 hash of directory contents v1.0\n" ++
          "62000000000000000000000000000000  b.txt\n" ++
          "73000000000000000000000000000000  sub/.secret\n"))) ∧
      ∃ L : List GoString,
        (∀ p, p ∈ L ↔ p ∈ mapKeys dottedMap ∧ p.head? ≠ some dot) ∧
        (∀ p ∈ mapKeys dottedMap, ∃ d, mapGet dottedMap p = some d ∧
          formatLine dottedMap p = sprintfHex d ++ ascii "  " ++ p ++ ascii "\n" ∧
          (sprintfHex d).length = 32 ∧ ∀ c ∈ sprintfHex d, c ∈ ascii "0123456789abcdef") ∧
        (∃ w', calcMd5 sampleArgs (fun _ => (some dottedMap, none)) freshWorld = some w' ∧
          w'.fs (ascii "r" ++ [Separator] ++ ascii ".md5list") =
            .file (ascii "md5 hash of directory contents v1.0\n" ++
              L.flatMap (formatLine dottedMap))) ∧
        (ascii "sub/.secret" ∈ L ∧
          ∃ pre post,
            ascii "md5 hash of directory contents v1.0\n" ++
                L.flatMap (formatLine dottedMap) =
              pre ++ formatLine dottedMap (ascii "sub/.secret") ++ post) ∧
        ascii "../dir/a.txt" ∉ L ∧ ascii ".git/config" ∉ L := by
  obtain ⟨L, h1, h2, _, _, h5, h6, h7, h8⟩ :=
    calcMd5_hidden_filter sampleArgs (ascii "r") (fun _ => (some dottedMap, none)) freshWorld
      dottedMap (by decide) (by decide) rfl (by decide)
  exact ⟨⟨by decide, by decide, by decide⟩, by decide,
    L, h1, h2, h5 rfl rfl, h6 (by decide), h7, h8⟩

end Md5Folder
